import Mathlib

/-!
Verification of the epub grayscale-reduction tool (files epub-2bgs.py and
reduce.py) against its specification.

The image rasters are modelled as functions Nat → Nat → ℤ (intensity at
(x, y)); Python float arithmetic on the dyadic weights and on the
quantization step is modelled by exact rational arithmetic (all concrete
instances below only involve dyadic values, where the two agree), and
Python round (banker's rounding, round half to even) is modelled exactly.
File contents are modelled as lists of characters, and the concrete regex
substitutions of the rewriters are modelled by direct left-to-right
scanning functions mirroring re.sub on those fixed pattern shapes.
-/

set_option autoImplicit false

/-! ### Pixel model: Floyd-Steinberg dithering (floyd_steinberg_dither) -/

/-- Python round() on an exact rational: nearest integer, ties to even. -/
def rndHalfEven (q : ℚ) : ℤ :=
  if q - (⌊q⌋ : ℚ) < 1/2 then ⌊q⌋
  else if (1:ℚ)/2 < q - (⌊q⌋ : ℚ) then ⌊q⌋ + 1
  else if ⌊q⌋ % 2 = 0 then ⌊q⌋ else ⌊q⌋ + 1

/-- int(max(0, min(255, v))) from the source: clamp to [0,255] and truncate;
the argument of int() is nonnegative after clamping, so truncation is floor. -/
def clamp255 (v : ℚ) : ℤ := ⌊max 0 (min 255 v)⌋

/-- step = 255.0 / (levels - 1) -/
def qstep (L : Nat) : ℚ := 255 / ((L : ℚ) - 1)

/-- new_pixel = round(old_pixel / step) * step -/
def quantizePix (L : Nat) (v : ℚ) : ℚ := (rndHalfEven (v / qstep L) : ℚ) * qstep L

/-- error = old_pixel - new_pixel at pixel (x, y) -/
def ditherError (L : Nat) (x y : Nat) (p : Nat → Nat → ℤ) : ℚ :=
  ((p x y : ℚ)) - quantizePix L ((p x y : ℚ))

/-- pixels[a, b] = v -/
def setPix (p : Nat → Nat → ℤ) (a b : Nat) (v : ℤ) : Nat → Nat → ℤ :=
  fun x y => if x = a ∧ y = b then v else p x y

/-- The loop body of floyd_steinberg_dither for one visited pixel (x, y):
write the quantized value back, then push the weighted error into the
in-bounds neighbors (right 7/16, below-left 3/16, below 5/16,
below-right 1/16), reading each neighbor's current value. -/
def ditherAt (w h L : Nat) (x y : Nat) (p : Nat → Nat → ℤ) : Nat → Nat → ℤ :=
  let err : ℚ := ditherError L x y p
  let p1 := setPix p x y (clamp255 (quantizePix L ((p x y : ℚ))))
  let p2 := if x + 1 < w then
      setPix p1 (x+1) y (clamp255 ((p1 (x+1) y : ℚ) + err * (7/16)))
    else p1
  if y + 1 < h then
    let p3 := if 0 < x then
        setPix p2 (x-1) (y+1) (clamp255 ((p2 (x-1) (y+1) : ℚ) + err * (3/16)))
      else p2
    let p4 := setPix p3 x (y+1) (clamp255 ((p3 x (y+1) : ℚ) + err * (5/16)))
    if x + 1 < w then
      setPix p4 (x+1) (y+1) (clamp255 ((p4 (x+1) (y+1) : ℚ) + err * (1/16)))
    else p4
  else p2

/-- Row-major traversal order of the two nested loops. -/
def pixelOrder (w h : Nat) : List (Nat × Nat) :=
  (List.range h).flatMap (fun y => (List.range w).map (fun x => (x, y)))

/-- floyd_steinberg_dither: visit every pixel in row-major order. -/
def floyd_steinberg_dither (w h L : Nat) (p : Nat → Nat → ℤ) : Nat → Nat → ℤ :=
  (pixelOrder w h).foldl (fun q c => ditherAt w h L c.1 c.2 q) p

/-- Strict row-major order on coordinates. -/
def rmLt (a b : Nat × Nat) : Prop := a.2 < b.2 ∨ (a.2 = b.2 ∧ a.1 < b.1)

theorem setPix_ne {p : Nat → Nat → ℤ} {a b v x y} (h : ¬ (x = a ∧ y = b)) :
    setPix p a b v x y = p x y := by
  unfold setPix
  rw [if_neg h]

theorem setPix_self (p : Nat → Nat → ℤ) (a b v) : setPix p a b v a b = v := by
  unfold setPix
  rw [if_pos ⟨rfl, rfl⟩]

/-- Processing pixel (cx, cy) only ever writes at the five coordinates
(cx, cy), (cx+1, cy), (cx-1, cy+1), (cx, cy+1), (cx+1, cy+1). -/
theorem ditherAt_frame {w h L : Nat} {cx cy : Nat} (p : Nat → Nat → ℤ)
    {a b : Nat}
    (n1 : ¬(a = cx ∧ b = cy)) (n2 : ¬(a = cx + 1 ∧ b = cy))
    (n3 : ¬(a = cx - 1 ∧ b = cy + 1)) (n4 : ¬(a = cx ∧ b = cy + 1))
    (n5 : ¬(a = cx + 1 ∧ b = cy + 1)) :
    ditherAt w h L cx cy p a b = p a b := by
  unfold ditherAt
  dsimp only
  split_ifs <;>
    simp only [setPix_ne n1, setPix_ne n2, setPix_ne n3, setPix_ne n4,
      setPix_ne n5]

/-- Processing pixel c never modifies a pixel strictly earlier in
row-major order. -/
theorem ditherAt_preserve {w h L : Nat} {cx cy x y : Nat}
    (p : Nat → Nat → ℤ) (hord : rmLt (x, y) (cx, cy)) :
    ditherAt w h L cx cy p x y = p x y := by
  rcases hord with hlt | ⟨heq, hlt⟩
  · exact ditherAt_frame p (by omega) (by omega) (by omega) (by omega) (by omega)
  · simp only at heq
    exact ditherAt_frame p (by omega) (by omega) (by omega) (by omega) (by omega)

theorem foldl_dither_preserve {w h L : Nat} (cs : List (Nat × Nat))
    (p : Nat → Nat → ℤ) (x y : Nat) (hall : ∀ c ∈ cs, rmLt (x, y) c) :
    (cs.foldl (fun q c => ditherAt w h L c.1 c.2 q) p) x y = p x y := by
  induction cs generalizing p with
  | nil => rfl
  | cons c rest ih =>
      rw [List.foldl_cons, ih _ (fun d hd => hall d (List.mem_cons_of_mem _ hd))]
      exact ditherAt_preserve p (hall c (List.mem_cons_self _ _))

/-- The value written at the visited pixel itself. -/
theorem ditherAt_self (w h L : Nat) (x y : Nat) (p : Nat → Nat → ℤ) :
    ditherAt w h L x y p x y = clamp255 (quantizePix L ((p x y : ℚ))) := by
  unfold ditherAt
  dsimp only
  split_ifs <;>
    simp only [setPix_ne (show ¬(x = x + 1 ∧ y = y) by omega),
      setPix_ne (show ¬(x = x - 1 ∧ y = y + 1) by omega),
      setPix_ne (show ¬(x = x ∧ y = y + 1) by omega),
      setPix_ne (show ¬(x = x + 1 ∧ y = y + 1) by omega),
      setPix_self]

theorem mem_pixelOrder {w h x y : Nat} :
    (x, y) ∈ pixelOrder w h ↔ x < w ∧ y < h := by
  simp only [pixelOrder, List.mem_flatMap, List.mem_map, List.mem_range]
  constructor
  · rintro ⟨b, hb, a, ha, heq⟩
    cases heq
    exact ⟨ha, hb⟩
  · rintro ⟨hx, hy⟩
    exact ⟨y, hy, x, hx, rfl⟩

theorem pixelOrder_pairwise (w h : Nat) : (pixelOrder w h).Pairwise rmLt := by
  induction h with
  | zero => simp [pixelOrder]
  | succ n ih =>
      unfold pixelOrder
      rw [List.range_succ, List.flatMap_append]
      rw [List.pairwise_append]
      refine ⟨ih, ?_, ?_⟩
      · simp only [List.flatMap_cons, List.flatMap_nil, List.append_nil]
        refine List.Pairwise.map (fun x => (x, n)) ?_ (List.pairwise_lt_range w)
        intro a b hab
        exact Or.inr ⟨rfl, hab⟩
      · intro a ha b hb
        obtain ⟨ya, hya, xa, hxa, heqa⟩ := by
          simpa only [List.mem_flatMap, List.mem_map, List.mem_range] using ha
        obtain ⟨xb, hxb, heqb⟩ := by
          simpa only [List.flatMap_cons, List.flatMap_nil, List.append_nil,
            List.mem_map, List.mem_range] using hb
        cases heqa
        cases heqb
        exact Or.inl hya

/-- Clamping a multiple of the step lands exactly on the floor of one of
the N quantization levels k * step, 0 ≤ k ≤ N - 1. -/
theorem clamp_quant_levels (L : Nat) (hL : 2 ≤ L) (j : ℤ) :
    ∃ k : Nat, k ≤ L - 1 ∧ clamp255 ((j : ℚ) * qstep L) = ⌊(k : ℚ) * qstep L⌋ := by
  have hL1 : (1 : ℚ) ≤ (L : ℚ) - 1 := by
    have h2 : (2 : ℚ) ≤ (L : ℚ) := by exact_mod_cast hL
    linarith
  have hpos : 0 < qstep L := by
    unfold qstep
    exact div_pos (by norm_num) (by linarith)
  have hcastL : ((L - 1 : Nat) : ℚ) = (L : ℚ) - 1 := by
    have h1 : (1 : Nat) ≤ L := by omega
    push_cast [h1]
    ring
  have htop : ((L - 1 : Nat) : ℚ) * qstep L = 255 := by
    rw [hcastL]
    unfold qstep
    field_simp
  rcases le_or_lt j 0 with hj | hj
  · refine ⟨0, by omega, ?_⟩
    have hle : (j : ℚ) * qstep L ≤ 0 := by
      have hj' : (j : ℚ) ≤ 0 := by exact_mod_cast hj
      have := mul_le_mul_of_nonneg_right hj' (le_of_lt hpos)
      simpa using this
    unfold clamp255
    rw [min_eq_right (by linarith), max_eq_left hle]
    norm_num
  rcases lt_or_le j ((L : ℤ) - 1) with hj2 | hj2
  · refine ⟨j.toNat, by omega, ?_⟩
    have hcast : ((j.toNat : Nat) : ℚ) = (j : ℚ) := by
      have h0 : (0 : ℤ) ≤ j := le_of_lt hj
      exact_mod_cast Int.toNat_of_nonneg h0
    rw [hcast]
    have hjq : (j : ℚ) ≤ (L : ℚ) - 1 := by exact_mod_cast le_of_lt hj2
    have hub : (j : ℚ) * qstep L ≤ 255 := by
      calc (j : ℚ) * qstep L ≤ ((L : ℚ) - 1) * qstep L :=
            mul_le_mul_of_nonneg_right hjq (le_of_lt hpos)
        _ = 255 := by rw [← hcastL, htop]
    have hlb : 0 ≤ (j : ℚ) * qstep L := by
      have hj' : (0 : ℚ) ≤ (j : ℚ) := by exact_mod_cast le_of_lt hj
      exact mul_nonneg hj' (le_of_lt hpos)
    unfold clamp255
    rw [min_eq_right hub, max_eq_right hlb]
  · refine ⟨L - 1, le_refl _, ?_⟩
    have hjq : (L : ℚ) - 1 ≤ (j : ℚ) := by exact_mod_cast hj2
    have hge : 255 ≤ (j : ℚ) * qstep L := by
      calc (255 : ℚ) = ((L : ℚ) - 1) * qstep L := by rw [← hcastL, htop]
        _ ≤ (j : ℚ) * qstep L := mul_le_mul_of_nonneg_right hjq (le_of_lt hpos)
    unfold clamp255
    rw [min_eq_left hge, max_eq_right (by norm_num), htop]

/-- C1 (amended): for every level count N ≥ 2, after the error-diffusion
pass every pixel holds the integer truncation of one of the N quantization
levels k * step (step = 255/(N-1)); when N-1 divides 255 these are exactly
the claimed levels 0, step, ..., 255.  The proof goes through the fact
that a pixel, once visited, is never modified again. -/
theorem C1_levels_floor (L w h : Nat) (hL : 2 ≤ L) (p : Nat → Nat → ℤ)
    (x y : Nat) (hx : x < w) (hy : y < h) :
    ∃ k : Nat, k ≤ L - 1 ∧
      floyd_steinberg_dither w h L p x y = ⌊(k : ℚ) * qstep L⌋ := by
  obtain ⟨l1, l2, hsplit⟩ := List.append_of_mem (mem_pixelOrder.2 ⟨hx, hy⟩)
  have hpw := pixelOrder_pairwise w h
  rw [hsplit] at hpw
  have h2 := (List.pairwise_append.1 hpw).2.1
  have hcons := (List.pairwise_cons.1 h2).1
  unfold floyd_steinberg_dither
  rw [hsplit, List.foldl_append, List.foldl_cons]
  rw [foldl_dither_preserve l2 _ x y hcons]
  rw [ditherAt_self]
  unfold quantizePix
  exact clamp_quant_levels L hL _

/-- C1 witness: the theorem applied to a concrete 2x1 raster with 4 levels. -/
theorem C1_levels_floor_witness :
    ∃ k : Nat, k ≤ 4 - 1 ∧
      floyd_steinberg_dither 2 1 4 (fun _ _ => 96) 1 0 = ⌊(k : ℚ) * qstep 4⌋ :=
  C1_levels_floor 4 2 1 (by decide) (fun _ _ => 96) 1 0 (by decide) (by decide)

/-- Effect on the right neighbor (weight 7/16). -/
theorem ditherAt_right {w h L x y : Nat} (p : Nat → Nat → ℤ) (hx : x + 1 < w) :
    ditherAt w h L x y p (x+1) y
      = clamp255 ((p (x+1) y : ℚ) + ditherError L x y p * (7/16)) := by
  unfold ditherAt
  dsimp only
  simp only [if_pos hx]
  split_ifs <;>
    simp only [setPix_ne (show ¬(x + 1 = x - 1 ∧ y = y + 1) by omega),
      setPix_ne (show ¬(x + 1 = x ∧ y = y + 1) by omega),
      setPix_ne (show ¬(x + 1 = x + 1 ∧ y = y + 1) by omega),
      setPix_self, setPix_ne (show ¬(x + 1 = x ∧ y = y) by omega)]

/-- Effect on the below-left neighbor (weight 3/16). -/
theorem ditherAt_bl {w h L x y : Nat} (p : Nat → Nat → ℤ)
    (hy : y + 1 < h) (hx0 : 0 < x) :
    ditherAt w h L x y p (x-1) (y+1)
      = clamp255 ((p (x-1) (y+1) : ℚ) + ditherError L x y p * (3/16)) := by
  unfold ditherAt
  dsimp only
  simp only [if_pos hy, if_pos hx0]
  split_ifs <;>
    simp only [setPix_ne (show ¬(x - 1 = x + 1 ∧ y + 1 = y + 1) by omega),
      setPix_ne (show ¬(x - 1 = x ∧ y + 1 = y + 1) by omega),
      setPix_self,
      setPix_ne (show ¬(x - 1 = x + 1 ∧ y + 1 = y) by omega),
      setPix_ne (show ¬(x - 1 = x ∧ y + 1 = y) by omega)]

/-- Effect on the neighbor directly below (weight 5/16). -/
theorem ditherAt_b {w h L x y : Nat} (p : Nat → Nat → ℤ) (hy : y + 1 < h) :
    ditherAt w h L x y p x (y+1)
      = clamp255 ((p x (y+1) : ℚ) + ditherError L x y p * (5/16)) := by
  unfold ditherAt
  dsimp only
  simp only [if_pos hy]
  split_ifs with h1 h2 h3 <;>
    first
    | simp only [setPix_ne (show ¬(x = x - 1 ∧ y + 1 = y + 1) by omega),
        setPix_ne (show ¬(x = x + 1 ∧ y + 1 = y + 1) by omega),
        setPix_self,
        setPix_ne (show ¬(x = x + 1 ∧ y + 1 = y) by omega),
        setPix_ne (show ¬(x = x ∧ y + 1 = y) by omega)]
    | simp only [setPix_ne (show ¬(x = x + 1 ∧ y + 1 = y + 1) by omega),
        setPix_self,
        setPix_ne (show ¬(x = x + 1 ∧ y + 1 = y) by omega),
        setPix_ne (show ¬(x = x ∧ y + 1 = y) by omega)]

/-- Effect on the below-right neighbor (weight 1/16). -/
theorem ditherAt_br {w h L x y : Nat} (p : Nat → Nat → ℤ)
    (hy : y + 1 < h) (hx : x + 1 < w) :
    ditherAt w h L x y p (x+1) (y+1)
      = clamp255 ((p (x+1) (y+1) : ℚ) + ditherError L x y p * (1/16)) := by
  unfold ditherAt
  dsimp only
  simp only [if_pos hy, if_pos hx]
  split_ifs <;>
    simp only [setPix_self,
      setPix_ne (show ¬(x + 1 = x ∧ y + 1 = y + 1) by omega),
      setPix_ne (show ¬(x + 1 = x - 1 ∧ y + 1 = y + 1) by omega),
      setPix_ne (show ¬(x + 1 = x + 1 ∧ y + 1 = y) by omega),
      setPix_ne (show ¬(x + 1 = x ∧ y + 1 = y) by omega)]

/-- C2 (amended): at each visited pixel, every in-bounds neighbor is
incremented by error * weight (weights 7/16, 3/16, 5/16, 1/16), clamped to
[0, 255] and then truncated to an integer; the four nominal weighted
increments sum to exactly one rounding delta; the weight applied to an
in-bounds neighbor does not depend on which other neighbors exist, and no
pixel outside the five written coordinates is modified, so at a boundary
the out-of-bounds fraction of the error is simply dropped. -/
theorem C2_neighbor_updates (w h L x y : Nat) (p : Nat → Nat → ℤ) :
    ditherAt w h L x y p x y = clamp255 (quantizePix L ((p x y : ℚ)))
    ∧ (x + 1 < w → ditherAt w h L x y p (x+1) y
        = clamp255 ((p (x+1) y : ℚ) + ditherError L x y p * (7/16)))
    ∧ (y + 1 < h → 0 < x → ditherAt w h L x y p (x-1) (y+1)
        = clamp255 ((p (x-1) (y+1) : ℚ) + ditherError L x y p * (3/16)))
    ∧ (y + 1 < h → ditherAt w h L x y p x (y+1)
        = clamp255 ((p x (y+1) : ℚ) + ditherError L x y p * (5/16)))
    ∧ (y + 1 < h → x + 1 < w → ditherAt w h L x y p (x+1) (y+1)
        = clamp255 ((p (x+1) (y+1) : ℚ) + ditherError L x y p * (1/16)))
    ∧ ditherError L x y p * (7/16) + ditherError L x y p * (3/16)
        + ditherError L x y p * (5/16) + ditherError L x y p * (1/16)
        = ditherError L x y p
    ∧ (∀ a b : Nat, ¬(a = x ∧ b = y) → ¬(a = x + 1 ∧ b = y)
        → ¬(a = x - 1 ∧ b = y + 1) → ¬(a = x ∧ b = y + 1)
        → ¬(a = x + 1 ∧ b = y + 1) → ditherAt w h L x y p a b = p a b) :=
  ⟨ditherAt_self w h L x y p,
   fun hx => ditherAt_right p hx,
   fun hy hx0 => ditherAt_bl p hy hx0,
   fun hy => ditherAt_b p hy,
   fun hy hx => ditherAt_br p hy hx,
   by ring,
   fun a b n1 n2 n3 n4 n5 => ditherAt_frame p n1 n2 n3 n4 n5⟩

/-- C2 witness: the amended theorem applied to a concrete 3x2 raster at
the interior pixel (1, 0), where all four neighbors exist. -/
theorem C2_neighbor_updates_witness :
    ditherAt 3 2 4 1 0 (fun _ _ => 37) 2 0
      = clamp255 (((fun (_ _ : Nat) => (37 : ℤ)) 2 0 : ℚ)
          + ditherError 4 1 0 (fun _ _ => 37) * (7/16)) ∧
    ditherAt 3 2 4 1 0 (fun _ _ => 37) 0 1
      = clamp255 (((fun (_ _ : Nat) => (37 : ℤ)) 0 1 : ℚ)
          + ditherError 4 1 0 (fun _ _ => 37) * (3/16)) ∧
    ditherAt 3 2 4 1 0 (fun _ _ => 37) 1 1
      = clamp255 (((fun (_ _ : Nat) => (37 : ℤ)) 1 1 : ℚ)
          + ditherError 4 1 0 (fun _ _ => 37) * (5/16)) ∧
    ditherAt 3 2 4 1 0 (fun _ _ => 37) 2 1
      = clamp255 (((fun (_ _ : Nat) => (37 : ℤ)) 2 1 : ℚ)
          + ditherError 4 1 0 (fun _ _ => 37) * (1/16)) :=
  ⟨(C2_neighbor_updates 3 2 4 1 0 (fun _ _ => 37)).2.1 (by decide),
   (C2_neighbor_updates 3 2 4 1 0 (fun _ _ => 37)).2.2.1 (by decide) (by decide),
   (C2_neighbor_updates 3 2 4 1 0 (fun _ _ => 37)).2.2.2.1 (by decide),
   (C2_neighbor_updates 3 2 4 1 0 (fun _ _ => 37)).2.2.2.2.1 (by decide) (by decide)⟩

/-- C2 counterexample: dithering the 2x1 raster [42, 100] with 4 levels
stores 118 in the right neighbor, while "incremented by exactly
error * 7/16 then clamped to [0,255]" would give the non-integer 118.375:
the claim omits the integer truncation applied by the code. -/
theorem C2_counterexample :
    ditherAt 2 1 4 0 0 (fun a _ => if a = 0 then 42 else 100) 1 0 = 118 ∧
    ((118 : ℚ)) ≠ max 0 (min 255
      (((fun (a : Nat) (_ : Nat) => if a = 0 then (42 : ℤ) else 100) 1 0 : ℚ)
        + ditherError 4 0 0 (fun a _ => if a = 0 then 42 else 100) * (7/16))) := by
  have herr : ditherError 4 0 0 (fun a _ => if a = 0 then (42 : ℤ) else 100) = 42 := by
    norm_num [ditherError, quantizePix, rndHalfEven, qstep]
  constructor
  · rw [ditherAt_right _ (by norm_num), herr]
    norm_num [clamp255, min_def, max_def]
  · rw [herr]
    norm_num [min_def, max_def]

/-- C1 counterexample: with N = 3 levels (step = 127.5) a uniform 1x1
raster of value 128 dithers to pixel value 127, which is not any of the
exact levels 0, 127.5, 255 claimed by the specification. -/
theorem C1_counterexample :
    floyd_steinberg_dither 1 1 3 (fun _ _ => 128) 0 0 = 127 ∧
    ∀ k : Fin 3, ((127 : ℚ)) ≠ (k : ℚ) * qstep 3 := by
  constructor
  · have h0 : pixelOrder 1 1 = [(0, 0)] := rfl
    unfold floyd_steinberg_dither
    rw [h0, List.foldl_cons, List.foldl_nil, ditherAt_self]
    norm_num [quantizePix, rndHalfEven, qstep, clamp255, min_def, max_def]
  · intro k
    fin_cases k <;> norm_num [qstep]

/-! ### Path model: relative paths inside the extracted archive tree -/

/-- os.path.basename / pathlib name: the part after the last slash. -/
def basename (p : List Char) : List Char :=
  (p.reverse.takeWhile (fun c => c != '/')).reverse

/-- pathlib Path.suffix: the final extension of the name, dot included;
empty when the name has no interior dot. -/
def pathSuffix (p : List Char) : List Char :=
  let n := basename p
  match n.reverse.findIdx? (fun a => a == '.') with
  | none => []
  | some j => if 0 < j ∧ j + 1 < n.length then n.drop (n.length - 1 - j) else []

/-- pathlib Path.stem: the name with the final extension removed. -/
def pathStem (p : List Char) : List Char :=
  let n := basename p
  match n.reverse.findIdx? (fun a => a == '.') with
  | none => n
  | some j => if 0 < j ∧ j + 1 < n.length then n.take (n.length - 1 - j) else n

/-- str.lower() on the chars of a path. -/
def lowerStr (s : List Char) : List Char := s.map Char.toLower

/-- suffix.lower() in {'.png', '.jpg', '.jpeg'} -/
def isImagePath (f : List Char) : Bool :=
  let e := lowerStr (pathSuffix f)
  e == ".png".toList || e == ".jpg".toList || e == ".jpeg".toList

/-- The directory part of a relative path, trailing slash included. -/
def dirPrefix (f : List Char) : List Char := f.take (f.length - (basename f).length)

/-- img_file.parent / (img_file.stem + '.png'), relative to the root. -/
def newImagePath (f : List Char) : List Char :=
  dirPrefix f ++ pathStem f ++ ".png".toList

/-! ### ArchivePipeline: image conversion loop of process_epub -/

/-- The image-conversion loop: enumerate files, and for each image file
whose conversion succeeds (the per-image success of
create_2bit_grayscale_png, modelled by the oracle ok since decoding and
encoding are done by the external imaging library) append the
(old relative path, new relative path) pair to the mapping. -/
def buildMapping (files : List (List Char)) (ok : List Char → Bool) :
    List (List Char × List Char) :=
  files.foldl
    (fun m f => if isImagePath f && ok f then m ++ [(f, newImagePath f)] else m) []

/-- The originals removed from the scratch tree: successfully converted
images whose extension differs from '.png'. -/
def deletedOriginals (files : List (List Char)) (ok : List Char → Bool) :
    List (List Char) :=
  files.filter
    (fun f => isImagePath f && ok f && (lowerStr (pathSuffix f) != ".png".toList))

theorem buildMapping_eq (files : List (List Char)) (ok : List Char → Bool) :
    buildMapping files ok
      = (files.filter (fun f => isImagePath f && ok f)).map
          (fun f => (f, newImagePath f)) := by
  unfold buildMapping
  suffices h : ∀ acc : List (List Char × List Char),
      files.foldl
        (fun m f => if isImagePath f && ok f then m ++ [(f, newImagePath f)] else m) acc
      = acc ++ (files.filter (fun f => isImagePath f && ok f)).map
          (fun f => (f, newImagePath f)) by
    simpa using h []
  induction files with
  | nil => intro acc; simp
  | cons g rest ih =>
      intro acc
      rw [List.foldl_cons]
      by_cases hg : (isImagePath g && ok g) = true
      · rw [if_pos hg, ih]
        simp [List.filter_cons, hg]
      · rw [if_neg hg, ih]
        simp [List.filter_cons, hg]

/-! ### ArchivePipeline: repackaging (the zip-writing loop) -/

def mimetypeName : List Char := "mimetype".toList

structure ZipEntry where
  name : List Char
  compressed : Bool
deriving DecidableEq

/-- The repack step of process_epub: if a root-level file named
'mimetype' exists it is written first, stored uncompressed; then every
file of the tree whose final name component is not 'mimetype' is written,
compressed, in traversal order. -/
def repackEntries (files : List (List Char)) : List ZipEntry :=
  (if mimetypeName ∈ files then [ZipEntry.mk mimetypeName false] else [])
    ++ (files.filter (fun f => basename f != mimetypeName)).map
        (fun f => ZipEntry.mk f true)

theorem basename_mimetype : basename mimetypeName = mimetypeName := by decide

/-- C10: the repack loop excludes every file whose final name component is
'mimetype' regardless of its directory: a file such as OEBPS/mimetype is
silently absent from the output, and an output entry whose final name
component is 'mimetype' can only be the root-level reserved entry, written
uncompressed. -/
theorem C10_mimetype_exclusion (files : List (List Char)) :
    (∀ f ∈ files, basename f = mimetypeName → f ≠ mimetypeName →
      ∀ e ∈ repackEntries files, e.name ≠ f)
    ∧ (∀ e ∈ repackEntries files, basename e.name = mimetypeName →
      e.name = mimetypeName ∧ e.compressed = false) := by
  constructor
  · intro f _ hbase hne e he
    unfold repackEntries at he
    rw [List.mem_append] at he
    rcases he with he | he
    · split_ifs at he with hm
      · rw [List.mem_singleton] at he
        subst he
        exact fun hc => hne (hc ▸ rfl)
      · cases he
    · obtain ⟨g, hg, rfl⟩ := List.mem_map.1 he
      have h2 := (List.mem_filter.1 hg).2
      intro hc
      dsimp at hc
      subst hc
      rw [hbase] at h2
      simp at h2
  · intro e he hbase
    unfold repackEntries at he
    rw [List.mem_append] at he
    rcases he with he | he
    · split_ifs at he with hm
      · rw [List.mem_singleton] at he
        subst he
        exact ⟨rfl, rfl⟩
      · cases he
    · obtain ⟨g, hg, rfl⟩ := List.mem_map.1 he
      have h2 := (List.mem_filter.1 hg).2
      dsimp at hbase
      rw [hbase] at h2
      simp at h2

/-- C10 witness: a nested OEBPS/mimetype never appears among the output
entries. -/
theorem C10_mimetype_exclusion_witness :
    ∀ e ∈ repackEntries ["OEBPS/mimetype".toList, "a.txt".toList],
      e.name ≠ "OEBPS/mimetype".toList :=
  (C10_mimetype_exclusion ["OEBPS/mimetype".toList, "a.txt".toList]).1
    "OEBPS/mimetype".toList (by decide) (by decide) (by decide)

/-- C4 (amended): if a root-level 'mimetype' file exists it is written as
the first output entry, stored without compression; if absent, repacking
still succeeds and no 'mimetype' entry is emitted; every remaining file
whose final name component is not 'mimetype' (files with a nested
'mimetype' name are skipped, see C10) is written afterward, compressed. -/
theorem C4_repack (files : List (List Char)) :
    (mimetypeName ∈ files →
      (repackEntries files).head? = some (ZipEntry.mk mimetypeName false))
    ∧ (mimetypeName ∉ files → ∀ e ∈ repackEntries files, e.name ≠ mimetypeName)
    ∧ (∀ f ∈ files, basename f ≠ mimetypeName →
        ZipEntry.mk f true ∈ repackEntries files)
    ∧ (∀ e ∈ repackEntries files, e.name ≠ mimetypeName →
        e.compressed = true ∧ e.name ∈ files ∧ basename e.name ≠ mimetypeName) := by
  refine ⟨?_, ?_, ?_, ?_⟩
  · intro hm
    unfold repackEntries
    rw [if_pos hm]
    rfl
  · intro hm e he hname
    unfold repackEntries at he
    rw [if_neg hm] at he
    rw [List.nil_append] at he
    obtain ⟨g, hg, rfl⟩ := List.mem_map.1 he
    have h2 := (List.mem_filter.1 hg).2
    dsimp at hname
    rw [hname, basename_mimetype] at h2
    simp at h2
  · intro f hf hbase
    unfold repackEntries
    rw [List.mem_append]
    right
    exact List.mem_map.2 ⟨f, List.mem_filter.2 ⟨hf, by simpa using hbase⟩, rfl⟩
  · intro e he hname
    unfold repackEntries at he
    rw [List.mem_append] at he
    rcases he with he | he
    · split_ifs at he with hm
      · rw [List.mem_singleton] at he
        subst he
        exact absurd rfl hname
      · cases he
    · obtain ⟨g, hg, rfl⟩ := List.mem_map.1 he
      obtain ⟨hgf, h2⟩ := List.mem_filter.1 hg
      exact ⟨rfl, hgf, by simpa using h2⟩

/-- C4 witness: a concrete tree with a root mimetype entry. -/
theorem C4_repack_witness :
    (repackEntries ["mimetype".toList, "a.css".toList]).head?
      = some (ZipEntry.mk mimetypeName false) ∧
    ZipEntry.mk "a.css".toList true
      ∈ repackEntries ["mimetype".toList, "a.css".toList] :=
  ⟨(C4_repack ["mimetype".toList, "a.css".toList]).1 (by decide),
   (C4_repack ["mimetype".toList, "a.css".toList]).2.2.1
     "a.css".toList (by decide) (by decide)⟩

/-- C4 counterexample: the input tree contains the remaining file
OEBPS/mimetype, yet no output entry carries that name, contradicting
"every remaining file of the scratch tree is written afterward". -/
theorem C4_counterexample :
    "OEBPS/mimetype".toList
        ∈ ["mimetype".toList, "OEBPS/mimetype".toList, "text.html".toList] ∧
    ∀ e ∈ repackEntries
        ["mimetype".toList, "OEBPS/mimetype".toList, "text.html".toList],
      e.name ≠ "OEBPS/mimetype".toList := by
  constructor
  · decide
  · decide

/-- C9: a failing image conversion is skipped without aborting: the failing
image is excluded from the mapping, its original file is not deleted from
the scratch tree, the remaining images are processed exactly as if the
failing image were absent, and every other successfully converted image
still enters the mapping. -/
theorem C9_skip_failures (files : List (List Char)) (ok : List Char → Bool)
    (f0 : List Char) (hfail : ok f0 = false) :
    (∀ q ∈ buildMapping files ok, q.1 ≠ f0)
    ∧ f0 ∉ deletedOriginals files ok
    ∧ (∀ pre post : List (List Char),
        buildMapping (pre ++ f0 :: post) ok = buildMapping (pre ++ post) ok)
    ∧ (∀ g ∈ files, isImagePath g = true → ok g = true →
        (g, newImagePath g) ∈ buildMapping files ok) := by
  refine ⟨?_, ?_, ?_, ?_⟩
  · intro q hq
    rw [buildMapping_eq] at hq
    obtain ⟨g, hg, rfl⟩ := List.mem_map.1 hq
    have h2 := (List.mem_filter.1 hg).2
    intro hc
    dsimp at hc
    subst hc
    rw [hfail] at h2
    simp at h2
  · intro hmem
    have h2 := (List.mem_filter.1 hmem).2
    rw [hfail] at h2
    simp at h2
  · intro pre post
    rw [buildMapping_eq, buildMapping_eq, List.filter_append, List.filter_append,
      List.filter_cons]
    simp [hfail]
  · intro g hg h1 h2
    rw [buildMapping_eq]
    exact List.mem_map.2 ⟨g, List.mem_filter.2 ⟨hg, by simp [h1, h2]⟩, rfl⟩

/-- C9 witness: with an oracle failing exactly on img/a.jpg, that image is
skipped and left in place while img/b.jpg is still converted and mapped. -/
theorem C9_skip_failures_witness :
    "img/a.jpg".toList ∉ deletedOriginals
        ["img/a.jpg".toList, "img/b.jpg".toList]
        (fun f => f != "img/a.jpg".toList) ∧
    buildMapping ["img/a.jpg".toList, "img/b.jpg".toList]
        (fun f => f != "img/a.jpg".toList)
      = buildMapping ["img/b.jpg".toList] (fun f => f != "img/a.jpg".toList) ∧
    ("img/b.jpg".toList, newImagePath "img/b.jpg".toList)
      ∈ buildMapping ["img/a.jpg".toList, "img/b.jpg".toList]
          (fun f => f != "img/a.jpg".toList) :=
  ⟨(C9_skip_failures _ _ "img/a.jpg".toList (by decide)).2.1,
   (C9_skip_failures ["img/a.jpg".toList, "img/b.jpg".toList] _
      "img/a.jpg".toList (by decide)).2.2.1 [] ["img/b.jpg".toList],
   (C9_skip_failures _ _ "img/a.jpg".toList (by decide)).2.2.2
      "img/b.jpg".toList (by decide) (by decide) (by decide)⟩

/-! ### String model: Python str and re.sub on the concrete patterns -/

/-- The double-quote character. -/
def qc : Char := Char.ofNat 34

/-- The single-quote (apostrophe) character. -/
def apc : Char := Char.ofNat 39

/-- s.startswith(pat) on char lists (pattern first). -/
def startsWith : List Char → List Char → Bool
  | [], _ => true
  | _ :: _, [] => false
  | a :: pa, b :: s => a == b && startsWith pa s

/-- s.endswith(pat) on char lists (pattern first). -/
def endsWith (pat s : List Char) : Bool := startsWith pat.reverse s.reverse

/-- pat in s: pat occurs as a contiguous run somewhere in s. -/
def hasInfix (pat : List Char) : List Char → Bool
  | [] => startsWith pat []
  | a :: t => startsWith pat (a :: t) || hasInfix pat t

/-- Match a literal prefix and return the remainder. -/
def stripPre (pre s : List Char) : Option (List Char) :=
  if startsWith pre s then some (s.drop pre.length) else none

/-- Split at the first occurrence of character c: the part before (c-free)
and the part after. -/
def splitAtChar (c : Char) : List Char → Option (List Char × List Char)
  | [] => none
  | a :: t =>
      if a == c then some ([], t)
      else
        match splitAtChar c t with
        | none => none
        | some (b, r) => some (a :: b, r)

/-- Python str.replace: replace every occurrence of old by new, scanning
left to right, non-overlapping.  Fueled with at least the length of the
string (each step consumes at least one character); the degenerate empty
pattern (never produced by the pipeline, whose patterns are file basenames)
is treated as matching nothing. -/
def strReplace (old new : List Char) : Nat → List Char → List Char
  | 0, s => s
  | _ + 1, [] => []
  | fuel + 1, a :: t =>
      if startsWith old (a :: t) && !old.isEmpty then
        new ++ strReplace old new fuel ((a :: t).drop old.length)
      else a :: strReplace old new fuel t

def pyReplace (old new s : List Char) : List Char := strReplace old new s.length s

/-- One re.sub pass: scan left to right; at each position either the
matcher fires, producing (match length, captured group), and the
replacement built from the group is emitted with scanning resuming after
the match, or the current character is copied. -/
def subLoop (tp : List Char → Option (Nat × List Char))
    (mk : List Char → List Char) : Nat → List Char → List Char
  | 0, s => s
  | _ + 1, [] => []
  | fuel + 1, a :: t =>
      match tp (a :: t) with
      | some (len, _g) => mk _g ++ subLoop tp mk fuel ((a :: t).drop len)
      | none => a :: subLoop tp mk fuel t

def reSub (tp : List Char → Option (Nat × List Char))
    (mk : List Char → List Char) (s : List Char) : List Char :=
  subLoop tp mk s.length s

/-- Matcher for the delimited patterns PRE([^D]*/OLD)D POST (with D the
delimiter character): the capture runs from after PRE to the first D, must
end in /OLD, and must be followed by POST.  This is exactly the match set
of the greedy regex, since neither the capture class nor OLD may contain
D. -/
def tryDelim (pre : List Char) (delim : Char) (old : List Char)
    (post : List Char) (s : List Char) : Option (Nat × List Char) :=
  match stripPre pre s with
  | none => none
  | some r1 =>
      match splitAtChar delim r1 with
      | none => none
      | some (b, after) =>
          if endsWith ('/' :: old) b then
            match stripPre post after with
            | none => none
            | some _ => some (pre.length + b.length + 1 + post.length, b)
          else none

/-- Matcher for the fully literal patterns (group grp inside literal lit). -/
def tryLit (lit : List Char) (grp : List Char) (s : List Char) :
    Option (Nat × List Char) :=
  if startsWith lit s then some (lit.length, grp) else none

/-! ### ReferenceRewriter: update_xml_references -/

/-- src=" -/
def srcDq : List Char := "src=".toList ++ [qc]

/-- src=' -/
def srcSq : List Char := "src=".toList ++ [apc]

/-- The replacement f-string src="{group.replace(old_filename, new_filename)}"
(always double-quoted, for all five patterns). -/
def mkSrc (old new g : List Char) : List Char :=
  srcDq ++ pyReplace old new g ++ [qc]

/-- re.sub of pattern src="([^"]*/OLD)". -/
def xmlPass1 (old new s : List Char) : List Char :=
  reSub (tryDelim srcDq qc old []) (mkSrc old new) s

/-- re.sub of pattern src='([^']*/OLD)'. -/
def xmlPass2 (old new s : List Char) : List Char :=
  reSub (tryDelim srcSq apc old []) (mkSrc old new) s

/-- re.sub of a literal pattern src="PFX OLD" with capture PFX OLD. -/
def xmlPassLit (pfx : List Char) (old new s : List Char) : List Char :=
  reSub (tryLit (srcDq ++ pfx ++ old ++ [qc]) (pfx ++ old)) (mkSrc old new) s

/-- The body of the mapping loop of update_xml_references for one entry:
the five re.sub passes, in source order. -/
def applyXmlEntry (old new s : List Char) : List Char :=
  xmlPassLit "./images/".toList old new
    (xmlPassLit "../images/".toList old new
      (xmlPassLit "images/".toList old new
        (xmlPass2 old new
          (xmlPass1 old new s))))

/-- update_xml_references: fold the per-entry rewriting over the mapping
(in Python dict insertion order), matching on the entries' basenames. -/
def update_xml_references (M : List (List Char × List Char)) (s : List Char) :
    List Char :=
  M.foldl (fun c e => applyXmlEntry (basename e.1) (basename e.2) c) s

/-! ### ReferenceRewriter: update_css_references -/

/-- url(" -/
def urlDq : List Char := "url(".toList ++ [qc]

/-- url(' -/
def urlSq : List Char := "url(".toList ++ [apc]

/-- url( -/
def urlBare : List Char := "url(".toList

/-- The replacement f-string url("{group.replace(old, new)}") (always
double-quoted, for all three patterns). -/
def mkUrl (old new g : List Char) : List Char :=
  urlDq ++ pyReplace old new g ++ [qc, ')']

/-- re.sub of pattern url\("([^"]*/OLD)"\). -/
def cssPass1 (old new s : List Char) : List Char :=
  reSub (tryDelim urlDq qc old [')']) (mkUrl old new) s

/-- re.sub of pattern url\('([^']*/OLD)'\). -/
def cssPass2 (old new s : List Char) : List Char :=
  reSub (tryDelim urlSq apc old [')']) (mkUrl old new) s

/-- re.sub of pattern url\(([^)]*/OLD)\). -/
def cssPass3 (old new s : List Char) : List Char :=
  reSub (tryDelim urlBare ')' old []) (mkUrl old new) s

/-- The body of the mapping loop of update_css_references for one entry. -/
def applyCssEntry (old new s : List Char) : List Char :=
  cssPass3 old new (cssPass2 old new (cssPass1 old new s))

/-- update_css_references: fold the per-entry rewriting over the mapping. -/
def update_css_references (M : List (List Char × List Char)) (s : List Char) :
    List Char :=
  M.foldl (fun c e => applyCssEntry (basename e.1) (basename e.2) c) s

/-! ### ReferenceRewriter: update_opf_manifest -/

def jpegType : List Char := "image/jpeg".toList

def pngType : List Char := "image/png".toList

/-- A manifest <item .../> element: its href and media-type attributes and
the remaining attributes, which the rewriter never touches. -/
structure ManifestItem where
  href : List Char
  mediaType : List Char
  rest : List (List Char × List Char)
deriving DecidableEq

/-- The inner mapping loop of update_opf_manifest: the first entry whose
old basename is a suffix of href wins (the loop breaks after a match). -/
def findMapEntry (href : List Char) :
    List (List Char × List Char) → Option (List Char × List Char)
  | [] => none
  | (o, n) :: t =>
      if endsWith (basename o) href then some (o, n) else findMapEntry href t

/-- The per-item body of update_opf_manifest: on a match, replace every
occurrence of the old basename in href by the new basename, and retarget
media-type to image/png when it was exactly image/jpeg; other attributes
are untouched. -/
def update_opf_item (M : List (List Char × List Char)) (it : ManifestItem) :
    ManifestItem :=
  match findMapEntry it.href M with
  | none => it
  | some (o, n) =>
      ManifestItem.mk
        (pyReplace (basename o) (basename n) it.href)
        (if it.mediaType = jpegType then pngType else it.mediaType)
        it.rest

/-- update_opf_manifest over the list of manifest items. -/
def update_opf_manifest (M : List (List Char × List Char))
    (items : List ManifestItem) : List ManifestItem :=
  items.map (update_opf_item M)

/-- Does the matcher fire at some position of the string?  (The rewriter
would rewrite such a string again.) -/
def hasMatch (tp : List Char → Option (Nat × List Char)) : List Char → Bool
  | [] => (tp []).isSome
  | a :: t => (tp (a :: t)).isSome || hasMatch tp t

/-- C6 counterexample: on a single-quoted reference the rewriter emits the
replacement in double quotes (the f-string replacement is always
src="..."), so the original quoting style is not preserved. -/
theorem C6_counterexample :
    update_xml_references
        [("images/cover.jpg".toList, "images/cover.png".toList)]
        ("src=".toList ++ [apc] ++ "images/cover.jpg".toList ++ [apc])
      = srcDq ++ "images/cover.png".toList ++ [qc] ∧
    srcDq ++ "images/cover.png".toList ++ [qc]
      ≠ "src=".toList ++ [apc] ++ "images/cover.png".toList ++ [apc] := by
  constructor
  · decide
  · decide

/-- C7 counterexample: group.replace replaces every occurrence of the old
filename inside the matched path, not only the final filename segment:
url(x/a.jpg/a.jpg) becomes url("x/a.png/a.png"), not url("x/a.jpg/a.png"). -/
theorem C7_counterexample :
    update_css_references [("images/a.jpg".toList, "images/a.png".toList)]
        "background: url(x/a.jpg/a.jpg);".toList
      = "background: ".toList ++ urlDq ++ "x/a.png/a.png".toList
          ++ [qc, ')'] ++ ";".toList ∧
    "background: ".toList ++ urlDq ++ "x/a.png/a.png".toList
        ++ [qc, ')'] ++ ";".toList
      ≠ "background: ".toList ++ urlDq ++ "x/a.jpg/a.png".toList
          ++ [qc, ')'] ++ ";".toList := by
  constructor
  · decide
  · decide

/-- C3 counterexample: for the chained mapping {p/b.jpg: q/c.jpg,
p/a.jpg: q/b.jpg} the first application rewrites src="x/a.jpg" to
src="x/b.jpg" and a second application rewrites that to src="x/c.jpg":
the handler is not idempotent for arbitrary mappings. -/
theorem C3_counterexample :
    update_xml_references
        [("p/b.jpg".toList, "q/c.jpg".toList), ("p/a.jpg".toList, "q/b.jpg".toList)]
        (srcDq ++ "x/a.jpg".toList ++ [qc])
      = srcDq ++ "x/b.jpg".toList ++ [qc] ∧
    update_xml_references
        [("p/b.jpg".toList, "q/c.jpg".toList), ("p/a.jpg".toList, "q/b.jpg".toList)]
        (srcDq ++ "x/b.jpg".toList ++ [qc])
      = srcDq ++ "x/c.jpg".toList ++ [qc] ∧
    (srcDq ++ "x/c.jpg".toList ++ [qc]) ≠ (srcDq ++ "x/b.jpg".toList ++ [qc]) := by
  refine ⟨?_, ?_, ?_⟩
  · decide
  · decide
  · decide

/-- C8 counterexample: an already-PNG image maps to itself (the mapping of
a run over the single file img/g.png is {img/g.png: img/g.png}), and the
rewritten markup still contains a reference whose filename g.png matches
that old filename: the rewriter itself would match it again. -/
theorem C8_counterexample :
    buildMapping ["img/g.png".toList] (fun _ => true)
      = [("img/g.png".toList, "img/g.png".toList)] ∧
    update_xml_references (buildMapping ["img/g.png".toList] (fun _ => true))
        (srcDq ++ "img/g.png".toList ++ [qc])
      = srcDq ++ "img/g.png".toList ++ [qc] ∧
    hasMatch (tryDelim srcDq qc (basename "img/g.png".toList) [])
        (update_xml_references (buildMapping ["img/g.png".toList] (fun _ => true))
          (srcDq ++ "img/g.png".toList ++ [qc])) = true := by
  refine ⟨?_, ?_, ?_⟩
  · decide
  · decide
  · decide

/-- C5 counterexample: the manifest matcher uses href.endswith(old
filename), which also fires on hrefs whose final segment merely ends with
the old filename: href "xcover.jpg" is rewritten to "xcover.png", whose
filename segment is not the new filename "cover.png". -/
theorem C5_counterexample :
    (update_opf_item [("images/cover.jpg".toList, "images/cover.png".toList)]
        (ManifestItem.mk "xcover.jpg".toList jpegType [])).href
      = "xcover.png".toList ∧
    basename (update_opf_item
        [("images/cover.jpg".toList, "images/cover.png".toList)]
        (ManifestItem.mk "xcover.jpg".toList jpegType [])).href
      ≠ basename "images/cover.png".toList := by
  constructor
  · decide
  · decide

/-! ### Basic lemmas about the string primitives -/

theorem startsWith_cons_cons (a b : Char) (p s : List Char) :
    startsWith (a :: p) (b :: s) = ((a == b) && startsWith p s) := rfl

theorem startsWith_self_append (p s : List Char) : startsWith p (p ++ s) = true := by
  induction p with
  | nil => rfl
  | cons a p ih => simp [startsWith_cons_cons, ih]

theorem startsWith_iff {p s : List Char} :
    startsWith p s = true ↔ ∃ t, s = p ++ t := by
  induction p generalizing s with
  | nil => simpa [startsWith] using ⟨s, rfl⟩
  | cons a p ih =>
      cases s with
      | nil =>
          simp only [startsWith]
          constructor
          · intro h; cases h
          · rintro ⟨t, ht⟩; cases ht
      | cons b s =>
          rw [startsWith_cons_cons, Bool.and_eq_true, beq_iff_eq, ih]
          constructor
          · rintro ⟨rfl, t, rfl⟩; exact ⟨t, rfl⟩
          · rintro ⟨t, ht⟩
            rw [List.cons_append] at ht
            cases ht
            exact ⟨rfl, t, rfl⟩

theorem endsWith_iff {p s : List Char} :
    endsWith p s = true ↔ ∃ u, s = u ++ p := by
  unfold endsWith
  rw [startsWith_iff]
  constructor
  · rintro ⟨t, ht⟩
    refine ⟨t.reverse, ?_⟩
    have := congrArg List.reverse ht
    simpa using this
  · rintro ⟨u, rfl⟩
    exact ⟨u.reverse, by simp⟩

theorem endsWith_append (u p : List Char) : endsWith p (u ++ p) = true :=
  endsWith_iff.2 ⟨u, rfl⟩

theorem startsWith_of_append_le {p u r : List Char}
    (h : startsWith p (u ++ r) = true) (hlen : p.length ≤ u.length) :
    startsWith p u = true := by
  induction p generalizing u with
  | nil => rfl
  | cons a p ih =>
      cases u with
      | nil => simp at hlen
      | cons b u =>
          rw [List.cons_append, startsWith_cons_cons, Bool.and_eq_true] at h
          rw [startsWith_cons_cons, Bool.and_eq_true]
          exact ⟨h.1, ih h.2 (by simpa using hlen)⟩

theorem startsWith_split {p v r : List Char}
    (h : startsWith p (v ++ r) = true) (hlen : v.length ≤ p.length) :
    v = p.take v.length ∧ startsWith (p.drop v.length) r = true := by
  induction v generalizing p with
  | nil => exact ⟨rfl, h⟩
  | cons b v ih =>
      cases p with
      | nil => simp at hlen
      | cons a p =>
          rw [List.cons_append, startsWith_cons_cons, Bool.and_eq_true,
            beq_iff_eq] at h
          obtain ⟨rfl, h2⟩ := h
          obtain ⟨h3, h4⟩ := ih h2 (by simpa using hlen)
          exact ⟨by simpa using h3, h4⟩

theorem all_of_startsWith {f : Char → Bool} {p s : List Char}
    (h : startsWith p s = true) (hs : s.all f = true) : p.all f = true := by
  obtain ⟨t, rfl⟩ := startsWith_iff.1 h
  simp only [List.all_append, Bool.and_eq_true] at hs
  exact hs.1

theorem hasInfix_of_startsWith_suffix {pat u v : List Char}
    (h : startsWith pat v = true) : hasInfix pat (u ++ v) = true := by
  induction u with
  | nil =>
      cases v with
      | nil => exact h
      | cons a t => simp [hasInfix, h]
  | cons a u ih => simp [hasInfix, ih]

theorem hasInfix_cons_false {pat : List Char} {a : Char} {t : List Char}
    (h : hasInfix pat (a :: t) = false) : hasInfix pat t = false := by
  by_cases h2 : hasInfix pat t = true
  · rw [show hasInfix pat (a :: t) = (startsWith pat (a :: t) || hasInfix pat t)
      from rfl] at h
    rw [h2] at h
    simp at h
  · simpa using h2

theorem basename_no_slash (p : List Char) :
    (basename p).all (fun c => c != '/') = true := by
  unfold basename
  rw [List.all_reverse]
  exact List.all_takeWhile ..

/-! ### Lemmas about strReplace -/

theorem strReplace_nil (old new : List Char) (fuel : Nat) :
    strReplace old new fuel [] = [] := by
  cases fuel <;> rfl

theorem strReplace_self (old : List Char) :
    ∀ (fuel : Nat) (s : List Char), strReplace old old fuel s = s := by
  intro fuel
  induction fuel with
  | zero => intro s; rfl
  | succ f ih =>
      intro s
      cases s with
      | nil => rfl
      | cons a t =>
          show (if startsWith old (a :: t) && !old.isEmpty then
              old ++ strReplace old old f ((a :: t).drop old.length)
            else a :: strReplace old old f t) = a :: t
          split_ifs with hc
          · rw [Bool.and_eq_true] at hc
            obtain ⟨w, hw⟩ := startsWith_iff.1 hc.1
            rw [hw, List.drop_left, ih]
          · rw [ih]

theorem pyReplace_self (old s : List Char) : pyReplace old old s = s :=
  strReplace_self old s.length s

theorem strReplace_all {f : Char → Bool} (old new : List Char)
    (hnew : new.all f = true) :
    ∀ (fuel : Nat) (s : List Char), s.all f = true →
      (strReplace old new fuel s).all f = true := by
  intro fuel
  induction fuel with
  | zero => intro s hs; exact hs
  | succ fl ih =>
      intro s hs
      cases s with
      | nil => exact hs
      | cons a t =>
          show (if startsWith old (a :: t) && !old.isEmpty then
              new ++ strReplace old new fl ((a :: t).drop old.length)
            else a :: strReplace old new fl t).all f = true
          split_ifs with hc
          · rw [Bool.and_eq_true] at hc
            obtain ⟨w, hw⟩ := startsWith_iff.1 hc.1
            rw [List.all_append, Bool.and_eq_true]
            refine ⟨hnew, ih _ ?_⟩
            rw [hw, List.drop_left]
            rw [hw, List.all_append, Bool.and_eq_true] at hs
            exact hs.2
          · rw [List.all_cons, Bool.and_eq_true] at hs ⊢
            exact ⟨hs.1, ih t hs.2⟩

/-- No occurrence of a nonempty slash-free pattern can start within u and
reach across the slash of u ++ '/' :: r. -/
theorem not_startsWith_slash_block {old u r : List Char} (hne : old ≠ [])
    (hsl : old.all (fun c => c != '/') = true) (hlen : u.length < old.length) :
    startsWith old (u ++ '/' :: r) = false := by
  by_cases h : startsWith old (u ++ '/' :: r) = true
  · obtain ⟨_, h2⟩ := startsWith_split h (le_of_lt hlen)
    exfalso
    cases hd : old.drop u.length with
    | nil =>
        have := congrArg List.length hd
        simp at this
        omega
    | cons d dd =>
        rw [hd, startsWith_cons_cons, Bool.and_eq_true, beq_iff_eq] at h2
        have hdm : d ∈ old := List.drop_subset u.length old (hd ▸ List.mem_cons_self d dd)
        have := List.all_eq_true.1 hsl d hdm
        rw [h2.1] at this
        simp at this
  · simpa using h

/-- Replacing old by new in the string old itself gives new. -/
theorem strReplace_exact {old : List Char} (new : List Char) (hne : old ≠ []) :
    ∀ fuel : Nat, old.length ≤ fuel → strReplace old new fuel old = new := by
  intro fuel
  cases fuel with
  | zero =>
      intro h
      exfalso
      cases old with
      | nil => exact hne rfl
      | cons c t => simp at h
  | succ fl =>
      intro _h
      cases old with
      | nil => exact absurd rfl hne
      | cons c t =>
          show (if startsWith (c :: t) (c :: t) && !(c :: t).isEmpty then
              new ++ strReplace (c :: t) new fl ((c :: t).drop (c :: t).length)
            else c :: strReplace (c :: t) new fl t) = new
          have hc : (startsWith (c :: t) (c :: t) && !(c :: t).isEmpty) = true := by
            rw [show startsWith (c :: t) (c :: t) = true from by
              have := startsWith_self_append (c :: t) []
              rwa [List.append_nil] at this]
            rfl
          rw [if_pos hc, List.drop_length, strReplace_nil, List.append_nil]

/-- The head of u ++ '/' :: r never starts an occurrence of a nonempty
slash-free pattern when u is empty. -/
theorem not_startsWith_slash_head {old r : List Char} (hne : old ≠ [])
    (hsl : old.all (fun c => c != '/') = true) :
    startsWith old ('/' :: r) = false := by
  have hone : 1 ≤ old.length := by
    cases old with
    | nil => exact absurd rfl hne
    | cons c t => simp
  have h := @not_startsWith_slash_block old [] r hne hsl (by simpa using hone)
  simpa using h

/-- Clean replacement: when the old pattern is a nonempty slash-free name,
occurs nowhere in the directory part, and the string ends in /old, replace
rewrites exactly the final segment. -/
theorem strReplace_clean {old new : List Char} (hne : old ≠ [])
    (hsl : old.all (fun c => c != '/') = true) :
    ∀ (fuel : Nat) (u : List Char), (u ++ '/' :: old).length ≤ fuel →
      hasInfix old u = false →
      strReplace old new fuel (u ++ '/' :: old) = u ++ '/' :: new := by
  intro fuel
  induction fuel with
  | zero => intro u hf; simp at hf
  | succ fl ih =>
      intro u hf hinf
      cases u with
      | nil =>
          rw [List.nil_append]
          show (if startsWith old ('/' :: old) && !old.isEmpty then
              new ++ strReplace old new fl (('/' :: old).drop old.length)
            else '/' :: strReplace old new fl old) = '/' :: new
          rw [not_startsWith_slash_head hne hsl]
          simp only [Bool.false_and, if_neg Bool.false_ne_true]
          congr 1
          refine strReplace_exact new hne fl ?_
          simp only [List.nil_append, List.length_cons] at hf
          omega
      | cons a u2 =>
          rw [List.cons_append]
          show (if startsWith old (a :: (u2 ++ '/' :: old)) && !old.isEmpty then
              new ++ strReplace old new fl ((a :: (u2 ++ '/' :: old)).drop old.length)
            else a :: strReplace old new fl (u2 ++ '/' :: old))
            = a :: (u2 ++ '/' :: new)
          have hsw : startsWith old (a :: (u2 ++ '/' :: old)) = false := by
            by_cases hlen : old.length ≤ (a :: u2).length
            · by_cases h : startsWith old (a :: (u2 ++ '/' :: old)) = true
              · exfalso
                have h2 : startsWith old (a :: u2) = true := by
                  have : (a :: u2) ++ '/' :: old = a :: (u2 ++ '/' :: old) := by simp
                  exact startsWith_of_append_le (this ▸ h) hlen
                have : hasInfix old ([] ++ (a :: u2)) = true :=
                  hasInfix_of_startsWith_suffix h2
                rw [List.nil_append, hinf] at this
                cases this
              · simpa using h
            · have : (a :: u2) ++ '/' :: old = a :: (u2 ++ '/' :: old) := by simp
              rw [← this]
              exact not_startsWith_slash_block hne hsl (by omega)
          rw [hsw]
          simp only [Bool.false_and, if_neg Bool.false_ne_true]
          congr 1
          exact ih u2 (by simp at hf ⊢; omega) (hasInfix_cons_false hinf)

/-- Tail replacement: replacing a nonempty slash-free old name in a string
ending in /old yields a string ending in /new (whatever happens in the
directory part). -/
theorem strReplace_tail {old new : List Char} (hne : old ≠ [])
    (hsl : old.all (fun c => c != '/') = true) :
    ∀ (fuel : Nat) (u : List Char), (u ++ '/' :: old).length ≤ fuel →
      ∃ w, strReplace old new fuel (u ++ '/' :: old) = w ++ '/' :: new := by
  intro fuel
  induction fuel with
  | zero => intro u hf; simp at hf
  | succ fl ih =>
      intro u hf
      cases u with
      | nil =>
          refine ⟨[], ?_⟩
          rw [List.nil_append]
          show (if startsWith old ('/' :: old) && !old.isEmpty then
              new ++ strReplace old new fl (('/' :: old).drop old.length)
            else '/' :: strReplace old new fl old) = '/' :: new
          rw [not_startsWith_slash_head hne hsl]
          simp only [Bool.false_and, if_neg Bool.false_ne_true]
          congr 1
          refine strReplace_exact new hne fl ?_
          simp only [List.nil_append, List.length_cons] at hf
          omega
      | cons a u2 =>
          rw [List.cons_append]
          show ∃ w, (if startsWith old (a :: (u2 ++ '/' :: old)) && !old.isEmpty then
              new ++ strReplace old new fl ((a :: (u2 ++ '/' :: old)).drop old.length)
            else a :: strReplace old new fl (u2 ++ '/' :: old))
            = w ++ '/' :: new
          by_cases hsw : (startsWith old (a :: (u2 ++ '/' :: old)) && !old.isEmpty) = true
          · rw [if_pos hsw]
            rw [Bool.and_eq_true] at hsw
            have hlen : old.length ≤ (a :: u2).length := by
              by_contra hlt
              have heq : (a :: u2) ++ '/' :: old = a :: (u2 ++ '/' :: old) := by simp
              have := @not_startsWith_slash_block old (a :: u2) old hne hsl
                (show (a :: u2).length < old.length by omega)
              rw [heq] at this
              rw [this] at hsw
              cases hsw.1
            have hdrop : (a :: (u2 ++ '/' :: old)).drop old.length
                = ((a :: u2).drop old.length) ++ '/' :: old := by
              have heq : a :: (u2 ++ '/' :: old) = (a :: u2) ++ '/' :: old := by simp
              rw [heq, List.drop_append_of_le_length hlen]
            rw [hdrop]
            obtain ⟨w2, hw2⟩ := ih ((a :: u2).drop old.length)
              (by
                have h1 : ((a :: u2).drop old.length).length = (a :: u2).length - old.length := by
                  simp
                have hone : 1 ≤ old.length := by
                  cases old with
                  | nil => exact absurd rfl hne
                  | cons c t => simp
                simp only [List.length_append, List.length_cons, h1] at hf ⊢
                omega)
            rw [hw2]
            exact ⟨new ++ w2, by simp⟩
          · rw [if_neg hsw]
            obtain ⟨w2, hw2⟩ := ih u2 (by simp at hf ⊢; omega)
            rw [hw2]
            exact ⟨a :: w2, rfl⟩

/-- Two slash-free final segments of the same string are equal. -/
theorem slash_suffix_unique {a b w v : List Char}
    (ha : a.all (fun c => c != '/') = true)
    (hb : b.all (fun c => c != '/') = true)
    (h : w ++ '/' :: a = v ++ '/' :: b) : a = b := by
  rcases List.append_eq_append_iff.1 h with ⟨e, he1, he2⟩ | ⟨e, he1, he2⟩
  · cases e with
    | nil => simpa using he2
    | cons c ee =>
        rw [List.cons_append, List.cons.injEq] at he2
        exfalso
        have hmem : '/' ∈ a := by
          rw [he2.2]
          exact List.mem_append_right ee (List.mem_cons_self _ _)
        have hx := List.all_eq_true.1 ha '/' hmem
        simp at hx
  · cases e with
    | nil => simpa using he2.symm
    | cons c ee =>
        rw [List.cons_append, List.cons.injEq] at he2
        exfalso
        have hmem : '/' ∈ b := by
          rw [he2.2]
          exact List.mem_append_right ee (List.mem_cons_self _ _)
        have hx := List.all_eq_true.1 hb '/' hmem
        simp at hx

/-- C5 (amended): for the first mapping entry whose old basename is a
suffix of a manifest item's href, every occurrence of the old basename in
href is replaced by the new basename - in particular, when the old
basename occurs exactly once, as the final path segment, only the filename
segment of href is rewritten, to the new filename; the media-type is
changed to image/png exactly when it was image/jpeg; all other attributes
of the item are untouched. -/
theorem C5_manifest_update (M : List (List Char × List Char))
    (it : ManifestItem) (o n : List Char)
    (hfind : findMapEntry it.href M = some (o, n))
    (d : List Char) (hhref : it.href = d ++ '/' :: basename o)
    (hne : basename o ≠ [])
    (hcl : hasInfix (basename o) d = false) :
    (update_opf_item M it).href = d ++ '/' :: basename n
    ∧ ((update_opf_item M it).mediaType
        = if it.mediaType = jpegType then pngType else it.mediaType)
    ∧ (it.mediaType ≠ jpegType → (update_opf_item M it).mediaType = it.mediaType)
    ∧ (update_opf_item M it).rest = it.rest := by
  unfold update_opf_item
  rw [hfind]
  dsimp only
  refine ⟨?_, rfl, ?_, rfl⟩
  · rw [hhref]
    unfold pyReplace
    exact strReplace_clean hne (basename_no_slash o) _ d (le_refl _) hcl
  · intro hmt
    rw [if_neg hmt]

/-- C5 witness: the specification scenario, an item
href="images/cover.jpg" media-type="image/jpeg" under the mapping
{images/cover.jpg: images/cover.png}. -/
theorem C5_manifest_update_witness :
    (update_opf_item [("images/cover.jpg".toList, "images/cover.png".toList)]
        (ManifestItem.mk "images/cover.jpg".toList jpegType
          [("id".toList, "cover-img".toList)])).href
      = "images".toList ++ '/' :: basename "images/cover.png".toList
    ∧ ((update_opf_item [("images/cover.jpg".toList, "images/cover.png".toList)]
        (ManifestItem.mk "images/cover.jpg".toList jpegType
          [("id".toList, "cover-img".toList)])).mediaType
        = if (ManifestItem.mk "images/cover.jpg".toList jpegType
            [("id".toList, "cover-img".toList)]).mediaType = jpegType
          then pngType
          else (ManifestItem.mk "images/cover.jpg".toList jpegType
            [("id".toList, "cover-img".toList)]).mediaType)
    ∧ ((ManifestItem.mk "images/cover.jpg".toList jpegType
          [("id".toList, "cover-img".toList)]).mediaType ≠ jpegType →
        (update_opf_item [("images/cover.jpg".toList, "images/cover.png".toList)]
          (ManifestItem.mk "images/cover.jpg".toList jpegType
            [("id".toList, "cover-img".toList)])).mediaType
          = (ManifestItem.mk "images/cover.jpg".toList jpegType
              [("id".toList, "cover-img".toList)]).mediaType)
    ∧ (update_opf_item [("images/cover.jpg".toList, "images/cover.png".toList)]
        (ManifestItem.mk "images/cover.jpg".toList jpegType
          [("id".toList, "cover-img".toList)])).rest
      = (ManifestItem.mk "images/cover.jpg".toList jpegType
          [("id".toList, "cover-img".toList)]).rest :=
  C5_manifest_update
    [("images/cover.jpg".toList, "images/cover.png".toList)]
    (ManifestItem.mk "images/cover.jpg".toList jpegType
      [("id".toList, "cover-img".toList)])
    "images/cover.jpg".toList "images/cover.png".toList (by decide)
    "images".toList (by decide) (by decide) (by decide)

/-! ### Generic lemmas about the re.sub scanner -/

theorem subLoop_nil (tp : List Char → Option (Nat × List Char))
    (mk : List Char → List Char) (fuel : Nat) : subLoop tp mk fuel [] = [] := by
  cases fuel <;> rfl

/-- The scanner result does not depend on the fuel, as long as the fuel
covers the string length and every match consumes at least one character. -/
theorem subLoop_fuel (tp : List Char → Option (Nat × List Char))
    (mk : List Char → List Char)
    (hpos : ∀ s len g, tp s = some (len, g) → 1 ≤ len) :
    ∀ (n : Nat) (s : List Char) (f1 f2 : Nat), s.length ≤ n →
      s.length ≤ f1 → s.length ≤ f2 →
      subLoop tp mk f1 s = subLoop tp mk f2 s := by
  intro n
  induction n with
  | zero =>
      intro s f1 f2 hn _ _
      cases s with
      | nil => rw [subLoop_nil, subLoop_nil]
      | cons a t => simp at hn
  | succ m ih =>
      intro s f1 f2 hn h1 h2
      cases s with
      | nil => rw [subLoop_nil, subLoop_nil]
      | cons a t =>
          cases f1 with
          | zero => simp at h1
          | succ g1 =>
              cases f2 with
              | zero => simp at h2
              | succ g2 =>
                  show (match tp (a :: t) with
                    | some (len, _g) => mk _g ++ subLoop tp mk g1 ((a :: t).drop len)
                    | none => a :: subLoop tp mk g1 t)
                    = (match tp (a :: t) with
                    | some (len, _g) => mk _g ++ subLoop tp mk g2 ((a :: t).drop len)
                    | none => a :: subLoop tp mk g2 t)
                  simp only [List.length_cons] at hn h1 h2
                  cases htp : tp (a :: t) with
                  | some lg =>
                      obtain ⟨len, g⟩ := lg
                      have hl := hpos _ _ _ htp
                      have hd : ((a :: t).drop len).length = t.length + 1 - len := by
                        simp
                      dsimp only
                      rw [ih ((a :: t).drop len) g1 g2 (by omega) (by omega) (by omega)]
                  | none =>
                      dsimp only
                      rw [ih t g1 g2 (by omega) (by omega) (by omega)]

theorem reSub_cons_none {tp : List Char → Option (Nat × List Char)}
    {mk : List Char → List Char} {a : Char} {t : List Char}
    (htp : tp (a :: t) = none) :
    reSub tp mk (a :: t) = a :: reSub tp mk t := by
  show (match tp (a :: t) with
    | some (len, _g) => mk _g ++ subLoop tp mk t.length ((a :: t).drop len)
    | none => a :: subLoop tp mk t.length t) = _
  rw [htp]
  dsimp only
  rfl

theorem reSub_match {tp : List Char → Option (Nat × List Char)}
    {mk : List Char → List Char}
    (hpos : ∀ s len g, tp s = some (len, g) → 1 ≤ len)
    {a : Char} {t : List Char} {len : Nat} {g : List Char}
    (htp : tp (a :: t) = some (len, g)) :
    reSub tp mk (a :: t) = mk g ++ reSub tp mk ((a :: t).drop len) := by
  show (match tp (a :: t) with
    | some (len, _g) => mk _g ++ subLoop tp mk t.length ((a :: t).drop len)
    | none => a :: subLoop tp mk t.length t) = _
  rw [htp]
  dsimp only
  have hl := hpos _ _ _ htp
  congr 1
  refine subLoop_fuel tp mk hpos ((a :: t).drop len).length _ _ _ (le_refl _)
    ?_ (le_refl _)
  simp
  omega

/-- Skipping a block in which no position matches. -/
theorem reSub_skip {tp : List Char → Option (Nat × List Char)}
    {mk : List Char → List Char} {t r : List Char}
    (hnm : ∀ u v : List Char, t = u ++ v → v ≠ [] → tp (v ++ r) = none) :
    reSub tp mk (t ++ r) = t ++ reSub tp mk r := by
  induction t with
  | nil => simp
  | cons a t2 ih =>
      rw [List.cons_append]
      have h0 : tp (a :: (t2 ++ r)) = none := by
        have := hnm [] (a :: t2) rfl (by simp)
        rwa [List.cons_append] at this
      rw [reSub_cons_none h0]
      rw [ih (fun u v huv hv => hnm (a :: u) v (by rw [huv]; rfl) hv)]
      rfl

/-! ### No-match position lemmas -/

theorem startsWith_append_weaken {p e s : List Char}
    (h : startsWith (p ++ e) s = true) : startsWith p s = true := by
  obtain ⟨t, rfl⟩ := startsWith_iff.1 h
  rw [List.append_assoc]
  exact startsWith_self_append p (e ++ t)

theorem hasInfix_pattern_weaken {p e t : List Char}
    (h : hasInfix (p ++ e) t = true) : hasInfix p t = true := by
  induction t with
  | nil =>
      unfold hasInfix at h ⊢
      exact startsWith_append_weaken h
  | cons a t2 ih =>
      unfold hasInfix at h ⊢
      rw [Bool.or_eq_true] at h
      rcases h with h | h
      · rw [startsWith_append_weaken h]
        rfl
      · rw [ih h, Bool.or_true]

theorem startsWith_append_right (p : List Char) {q s : List Char} :
    startsWith (p ++ q) (p ++ s) = startsWith q s := by
  induction p with
  | nil => rfl
  | cons a p ih => simp [startsWith_cons_cons, ih]

/-- No position strictly inside a trigger-free text block, with a
continuation that is empty or starts with a character not occurring in
the trigger's tail, can start a match of the trigger. -/
theorem text_skip_nomatch {trig t0 r : List Char} {c0 : Char}
    (hinf : hasInfix trig t0 = false)
    (hr : r = [] ∨ ∃ r2, r = c0 :: r2)
    (hheads : ∀ k, k < trig.length → 1 ≤ k → ¬((trig.drop k).head? = some c0)) :
    ∀ u v : List Char, t0 = u ++ v → v ≠ [] →
      startsWith trig (v ++ r) = false := by
  intro u v heq hv
  by_cases h : startsWith trig (v ++ r) = true
  · exfalso
    by_cases hlen : trig.length ≤ v.length
    · have h2 : startsWith trig v = true := startsWith_of_append_le h hlen
      have h3 := hasInfix_of_startsWith_suffix (u := u) h2
      rw [← heq, hinf] at h3
      cases h3
    · obtain ⟨hveq, h2⟩ := startsWith_split h (by omega)
      rcases hr with rfl | ⟨r2, rfl⟩
      · cases hd : trig.drop v.length with
        | nil =>
            have := congrArg List.length hd
            simp at this
            omega
        | cons d dd => rw [hd] at h2; cases h2
      · cases hd : trig.drop v.length with
        | nil =>
            have := congrArg List.length hd
            simp at this
            omega
        | cons d dd =>
            rw [hd, startsWith_cons_cons, Bool.and_eq_true, beq_iff_eq] at h2
            have hk := hheads v.length (by omega)
              (by cases v with | nil => exact absurd rfl hv | cons x xs => simp)
            rw [hd] at hk
            exact hk (by rw [h2.1]; rfl)
  · simpa using h

/-- A character is safe when it is none of the quoting/grouping characters
that the patterns use as delimiters. -/
def safeChar (c : Char) : Bool :=
  !(c == qc || c == apc || c == '(' || c == ')' || c == '=')

/-- No position strictly inside a rendered reference OPEN ++ path ++ CLOSE
(other than its very start) can start a match of a pattern prefix pre,
whatever follows, provided the path uses only safe characters and the
concrete OPEN/CLOSE/pre satisfy the decidable character conditions below. -/
theorem piece_suffix_nomatch {OPEN path CLOSE pre cont u v : List Char}
    (hdec : OPEN ++ (path ++ CLOSE) = u ++ v) (hu : u ≠ []) (hv : v ≠ [])
    (hpath : path.all safeChar = true)
    (hpre : pre ≠ [])
    (hpreU : pre.all safeChar = false)
    (hclose : CLOSE ≠ [])
    (hopenH : ∀ k, k < OPEN.length → 1 ≤ k →
        ¬((OPEN.drop k).head? = pre.head?))
    (hcloseH : ∀ k, k < CLOSE.length →
        ¬((CLOSE.drop k).head? = pre.head?))
    (hmid : ∀ k, k < pre.length → (pre.take k).all safeChar = true →
        ¬((pre.drop k).head? = CLOSE.head?)) :
    startsWith pre (v ++ cont) = false := by
  obtain ⟨p0, pre2, rfl⟩ : ∃ p0 pre2, pre = p0 :: pre2 := by
    cases pre with
    | nil => exact absurd rfl hpre
    | cons p0 pre2 => exact ⟨p0, pre2, rfl⟩
  rcases List.append_eq_append_iff.1 hdec with ⟨e, he1, he2⟩ | ⟨e, he1, he2⟩
  · -- u = OPEN ++ e and path ++ CLOSE = e ++ v
    rcases List.append_eq_append_iff.1 he2.symm with ⟨f, hf1, hf2⟩ | ⟨f, hf1, hf2⟩
    · -- path = e ++ f and v = f ++ CLOSE : v starts inside the path
      subst hf2
      by_cases hlen : (p0 :: pre2).length ≤ f.length
      · by_cases hsw : startsWith (p0 :: pre2) ((f ++ CLOSE) ++ cont) = true
        · exfalso
          rw [List.append_assoc] at hsw
          have h2 : startsWith (p0 :: pre2) f = true :=
            startsWith_of_append_le hsw hlen
          have h3 : f.all safeChar = true := by
            rw [hf1, List.all_append, Bool.and_eq_true] at hpath
            exact hpath.2
          have h4 := all_of_startsWith h2 h3
          rw [h4] at hpreU
          cases hpreU
        · simpa using hsw
      · by_cases hsw : startsWith (p0 :: pre2) ((f ++ CLOSE) ++ cont) = true
        · exfalso
          rw [List.append_assoc] at hsw
          obtain ⟨hfeq, h2⟩ := startsWith_split hsw (by omega)
          have hfall : f.all safeChar = true := by
            rw [hf1, List.all_append, Bool.and_eq_true] at hpath
            exact hpath.2
          have htake : ((p0 :: pre2).take f.length).all safeChar = true := by
            rw [← hfeq]
            exact hfall
          have hk := hmid f.length (by omega) htake
          cases hcl : CLOSE with
          | nil => exact hclose hcl
          | cons c0 cl =>
              rw [hcl] at h2
              cases hdrop : (p0 :: pre2).drop f.length with
              | nil =>
                  have hld := congrArg List.length hdrop
                  simp only [List.length_drop, List.length_cons,
                    List.length_nil] at hld
                  simp only [List.length_cons] at hlen
                  omega
              | cons d dd =>
                  rw [hdrop, List.cons_append, startsWith_cons_cons,
                    Bool.and_eq_true, beq_iff_eq] at h2
                  rw [hdrop, hcl] at hk
                  exact hk (by rw [h2.1]; rfl)
        · simpa using hsw
    · -- e = path ++ f and CLOSE = f ++ v : v is a suffix of CLOSE
      cases v with
      | nil => exact absurd rfl hv
      | cons d v2 =>
          rw [List.cons_append, startsWith_cons_cons]
          have hk := hcloseH f.length (by
            have := congrArg List.length hf2
            simp at this
            omega)
          rw [hf2, List.drop_left] at hk
          simp only [List.head?_cons, Option.some.injEq] at hk
          have hbf : (p0 == d) = false := by
            cases hbd : (p0 == d) with
            | false => rfl
            | true =>
                rw [beq_iff_eq] at hbd
                exact absurd hbd.symm hk
          rw [hbf, Bool.false_and]
  · -- OPEN = u ++ e and v = e ++ (path ++ CLOSE) : v starts inside OPEN
    subst he2
    cases he : e with
    | nil =>
        -- v = path ++ CLOSE : same as the path case with f = path
        subst he
        rw [List.nil_append]
        by_cases hlen : (p0 :: pre2).length ≤ path.length
        · by_cases hsw : startsWith (p0 :: pre2) ((path ++ CLOSE) ++ cont) = true
          · exfalso
            rw [List.append_assoc] at hsw
            have h2 : startsWith (p0 :: pre2) path = true :=
              startsWith_of_append_le hsw hlen
            have h4 := all_of_startsWith h2 hpath
            rw [h4] at hpreU
            cases hpreU
          · simpa using hsw
        · by_cases hsw : startsWith (p0 :: pre2) ((path ++ CLOSE) ++ cont) = true
          · exfalso
            rw [List.append_assoc] at hsw
            obtain ⟨hfeq, h2⟩ := startsWith_split hsw (by omega)
            have htake : ((p0 :: pre2).take path.length).all safeChar = true := by
              rw [← hfeq]
              exact hpath
            have hk := hmid path.length (by omega) htake
            cases hcl : CLOSE with
            | nil => exact hclose hcl
            | cons c0 cl =>
                rw [hcl] at h2
                cases hdrop : (p0 :: pre2).drop path.length with
                | nil =>
                    have hld := congrArg List.length hdrop
                    simp only [List.length_drop, List.length_cons,
                      List.length_nil] at hld
                    simp only [List.length_cons] at hlen
                    omega
                | cons d dd =>
                    rw [hdrop, List.cons_append, startsWith_cons_cons,
                      Bool.and_eq_true, beq_iff_eq] at h2
                    rw [hdrop, hcl] at hk
                    exact hk (by rw [h2.1]; rfl)
          · simpa using hsw
    | cons d e2 =>
        subst he
        simp only [List.cons_append]
        rw [startsWith_cons_cons]
        have hk := hopenH u.length (by
          have := congrArg List.length he1
          simp at this
          omega)
          (by cases u with | nil => exact absurd rfl hu | cons x xs => simp)
        rw [he1, List.drop_left] at hk
        simp only [List.head?_cons, Option.some.injEq] at hk
        have hbf : (p0 == d) = false := by
          cases hbd : (p0 == d) with
          | false => rfl
          | true =>
              rw [beq_iff_eq] at hbd
              exact absurd hbd.symm hk
        rw [hbf, Bool.false_and]

theorem all_safe_ne {b : List Char} (h : b.all safeChar = true) {d : Char}
    (hd : safeChar d = false) : b.all (fun c => c != d) = true := by
  rw [List.all_eq_true] at h ⊢
  intro c hc
  have hs := h c hc
  simp only [bne_iff_ne, ne_eq]
  intro heq
  rw [← heq, hs] at hd
  cases hd

theorem stripPre_self_append (p s : List Char) : stripPre p (p ++ s) = some s := by
  unfold stripPre
  rw [startsWith_self_append]
  rw [if_pos rfl, List.drop_left]

theorem splitAtChar_eval {delim : Char} {b rest : List Char}
    (hb : b.all (fun c => c != delim) = true) :
    splitAtChar delim (b ++ delim :: rest) = some (b, rest) := by
  induction b with
  | nil =>
      show splitAtChar delim (delim :: rest) = some ([], rest)
      unfold splitAtChar
      rw [if_pos (by simp)]
  | cons a b2 ih =>
      rw [List.all_cons, Bool.and_eq_true] at hb
      show splitAtChar delim (a :: (b2 ++ delim :: rest)) = some (a :: b2, rest)
      unfold splitAtChar
      rw [if_neg (by
        rw [show (a != delim) = !(a == delim) from rfl] at hb
        simp only [Bool.not_eq_true'] at hb
        rw [hb.1]
        simp)]
      rw [ih hb.2]

theorem tryDelim_eval {pre : List Char} {delim : Char} {old post b rest : List Char}
    (hb : b.all (fun c => c != delim) = true) :
    tryDelim pre delim old post (pre ++ (b ++ delim :: rest))
      = if endsWith ('/' :: old) b then
          (match stripPre post rest with
           | none => none
           | some _ => some (pre.length + b.length + 1 + post.length, b))
        else none := by
  unfold tryDelim
  rw [stripPre_self_append]
  dsimp only
  rw [splitAtChar_eval hb]

theorem tryDelim_none {pre : List Char} {delim : Char} {old post s : List Char}
    (h : startsWith pre s = false) :
    tryDelim pre delim old post s = none := by
  unfold tryDelim stripPre
  rw [h]
  rfl

theorem tryLit_none {lit grp s : List Char} (h : startsWith lit s = false) :
    tryLit lit grp s = none := by
  unfold tryLit
  rw [h]
  rfl

/-- A quote-terminated literal X D cannot match a safe path terminated by
the same delimiter unless the path is exactly X. -/
theorem startsWith_block_quoteEnd {X path cont : List Char} {d : Char}
    (hX : X.all safeChar = true) (hpath : path.all safeChar = true)
    (hne : path ≠ X) (hd : safeChar d = false) :
    startsWith (X ++ [d]) (path ++ d :: cont) = false := by
  by_cases h : startsWith (X ++ [d]) (path ++ d :: cont) = true
  · exfalso
    by_cases hlen : path.length ≤ X.length
    · obtain ⟨hpeq, h2⟩ := startsWith_split h (by simp; omega)
      rcases Nat.lt_or_ge path.length X.length with hlt | hge
      · have hdr : (X ++ [d]).drop path.length = X.drop path.length ++ [d] := by
          rw [List.drop_append_of_le_length (by omega)]
        rw [hdr] at h2
        cases hxd : X.drop path.length with
        | nil =>
            have := congrArg List.length hxd
            simp at this
            omega
        | cons x0 xs =>
            rw [hxd, List.cons_append, startsWith_cons_cons, Bool.and_eq_true,
              beq_iff_eq] at h2
            have hx0 : x0 ∈ X := List.drop_subset path.length X
              (hxd ▸ List.mem_cons_self x0 xs)
            have hsafe := List.all_eq_true.1 hX x0 hx0
            rw [← h2.1, hsafe] at hd
            cases hd
      · have hXeq : X.length = path.length := by omega
        have : path = X := by
          rw [hpeq, List.take_append_of_le_length (by omega), ← hXeq,
            List.take_length]
        exact hne this
    · have h2 : startsWith (X ++ [d]) path = true :=
        startsWith_of_append_le h (by simp; omega)
      have h3 := all_of_startsWith h2 hpath
      rw [List.all_append] at h3
      simp only [Bool.and_eq_true, List.all_cons, List.all_nil,
        Bool.and_true] at h3
      rw [h3.2] at hd
      cases hd
  · simpa using h

theorem startsWith_srcDq_srcSq (X : List Char) :
    startsWith srcDq (srcSq ++ X) = false := by
  show startsWith ("src=".toList ++ [qc]) (("src=".toList ++ [apc]) ++ X) = false
  rw [List.append_assoc, startsWith_append_right]
  rw [List.cons_append, startsWith_cons_cons]
  rfl

theorem startsWith_srcSq_srcDq (X : List Char) :
    startsWith srcSq (srcDq ++ X) = false := by
  show startsWith ("src=".toList ++ [apc]) (("src=".toList ++ [qc]) ++ X) = false
  rw [List.append_assoc, startsWith_append_right]
  rw [List.cons_append, startsWith_cons_cons]
  rfl

/-! ### A structural model of markup content: inert text and src references -/

/-- An attribute-style reference src="path" (dquoted) or src='path'. -/
structure SrcRef where
  dquoted : Bool
  path : List Char
deriving DecidableEq

def renderSrcRef (r : SrcRef) : List Char :=
  if r.dquoted then srcDq ++ (r.path ++ [qc]) else srcSq ++ (r.path ++ [apc])

/-- A document body: a list of references, each followed by inert text. -/
def renderXmlBody : List (SrcRef × List Char) → List Char
  | [] => []
  | (r, t) :: rest => renderSrcRef r ++ (t ++ renderXmlBody rest)

/-- Inert text is safe when it cannot start an attribute reference. -/
def safeTextX (t : List Char) : Bool := !(hasInfix ("src=".toList) t)

def safeXmlBody (l : List (SrcRef × List Char)) : Bool :=
  l.all (fun rt => rt.1.path.all safeChar && safeTextX rt.2)

def mapBody (f : SrcRef → SrcRef) (l : List (SrcRef × List Char)) :
    List (SrcRef × List Char) :=
  l.map (fun rt => (f rt.1, rt.2))

theorem renderSrcRef_head (r : SrcRef) : ∃ z, renderSrcRef r = 's' :: z := by
  unfold renderSrcRef
  split_ifs
  · exact ⟨_, rfl⟩
  · exact ⟨_, rfl⟩

/-- One re.sub pass over a rendered document acts piecewise on the
references, given that the matcher fires exactly at matching reference
starts and consumes exactly the reference. -/
theorem doc_pass {tp : List Char → Option (Nat × List Char)}
    {mk : List Char → List Char} {act : SrcRef → SrcRef}
    (hpos : ∀ s len g, tp s = some (len, g) → 1 ≤ len)
    (htext : ∀ t cont : List Char, safeTextX t = true →
        (cont = [] ∨ ∃ z, cont = 's' :: z) →
        ∀ u v : List Char, t = u ++ v → v ≠ [] → tp (v ++ cont) = none)
    (hpiece : ∀ (r : SrcRef) (cont : List Char), r.path.all safeChar = true →
        ∀ u v : List Char, renderSrcRef r = u ++ v → u ≠ [] → v ≠ [] →
          tp (v ++ cont) = none)
    (hstart : ∀ (r : SrcRef) (cont : List Char), r.path.all safeChar = true →
        (tp (renderSrcRef r ++ cont) = none ∧ act r = r)
        ∨ ∃ g, tp (renderSrcRef r ++ cont) = some ((renderSrcRef r).length, g)
            ∧ mk g = renderSrcRef (act r)) :
    ∀ (l : List (SrcRef × List Char)) (t0 : List Char),
      safeTextX t0 = true → safeXmlBody l = true →
      reSub tp mk (t0 ++ renderXmlBody l)
        = t0 ++ renderXmlBody (mapBody act l) := by
  intro l
  induction l with
  | nil =>
      intro t0 ht0 _
      show reSub tp mk (t0 ++ []) = t0 ++ renderXmlBody []
      rw [reSub_skip (htext t0 [] ht0 (Or.inl rfl))]
      rfl
  | cons rt rest ih =>
      obtain ⟨r, t⟩ := rt
      intro t0 ht0 hbody
      rw [show safeXmlBody ((r, t) :: rest)
          = ((r.path.all safeChar && safeTextX t) && safeXmlBody rest) from by
        simp [safeXmlBody]] at hbody
      rw [Bool.and_eq_true, Bool.and_eq_true] at hbody
      obtain ⟨⟨hrp, htt⟩, hrest⟩ := hbody
      show reSub tp mk (t0 ++ (renderSrcRef r ++ (t ++ renderXmlBody rest)))
        = t0 ++ renderXmlBody (mapBody act ((r, t) :: rest))
      obtain ⟨z, hz⟩ := renderSrcRef_head r
      rw [reSub_skip (htext t0 (renderSrcRef r ++ (t ++ renderXmlBody rest)) ht0
        (Or.inr ⟨z ++ (t ++ renderXmlBody rest), by rw [hz]; rfl⟩))]
      congr 1
      rcases hstart r (t ++ renderXmlBody rest) hrp with ⟨hnone, hactr⟩ | ⟨g, hsome, hmk⟩
      · have hnm2 : ∀ u v : List Char, renderSrcRef r = u ++ v → v ≠ [] →
            tp (v ++ (t ++ renderXmlBody rest)) = none := by
          intro u v huv hv
          cases u with
          | nil =>
              rw [List.nil_append] at huv
              rw [← huv]
              exact hnone
          | cons a u2 => exact hpiece r _ hrp (a :: u2) v huv (by simp) hv
        rw [reSub_skip hnm2]
        rw [ih t htt hrest]
        show renderSrcRef r ++ (t ++ renderXmlBody (mapBody act rest))
          = renderSrcRef (act r) ++ (t ++ renderXmlBody (mapBody act rest))
        rw [hactr]
      · have hcons : renderSrcRef r ++ (t ++ renderXmlBody rest)
            = 's' :: (z ++ (t ++ renderXmlBody rest)) := by
          rw [hz]
          rfl
        rw [hcons]
        rw [reSub_match hpos (by rw [← hcons]; exact hsome)]
        have hdrop : ('s' :: (z ++ (t ++ renderXmlBody rest))).drop
            (renderSrcRef r).length = t ++ renderXmlBody rest := by
          rw [← hcons]
          exact List.drop_left _ _
        rw [hdrop, ih t htt hrest, hmk]
        rfl

theorem stripPre_nil_pre (s : List Char) : stripPre [] s = some s := by
  unfold stripPre
  rw [show startsWith [] s = true from rfl, if_pos rfl]
  rfl

theorem tryDelim_pos {pre : List Char} {delim : Char} {old post s : List Char}
    {len : Nat} {g : List Char}
    (h : tryDelim pre delim old post s = some (len, g)) : 1 ≤ len := by
  unfold tryDelim at h
  cases h1 : stripPre pre s with
  | none => rw [h1] at h; cases h
  | some r1 =>
      rw [h1] at h
      dsimp only at h
      cases h2 : splitAtChar delim r1 with
      | none => rw [h2] at h; cases h
      | some ba =>
          rw [h2] at h
          obtain ⟨b, after⟩ := ba
          dsimp only at h
          split_ifs at h
          · cases h3 : stripPre post after with
            | none => rw [h3] at h; cases h
            | some w =>
                rw [h3] at h
                dsimp only at h
                simp only [Option.some.injEq, Prod.mk.injEq] at h
                omega

theorem tryLit_pos {lit grp s : List Char} {len : Nat} {g : List Char}
    (hlit : lit ≠ []) (h : tryLit lit grp s = some (len, g)) : 1 ≤ len := by
  unfold tryLit at h
  split_ifs at h
  simp only [Option.some.injEq, Prod.mk.injEq] at h
  cases lit with
  | nil => exact absurd rfl hlit
  | cons c t => simp only [List.length_cons] at h; omega

theorem safeTextX_no_trig {t trig : List Char}
    (hshape : trig = "src=".toList ++ [qc] ∨ trig = "src=".toList ++ [apc])
    (ht : safeTextX t = true) : hasInfix trig t = false := by
  unfold safeTextX at ht
  rw [Bool.not_eq_true'] at ht
  by_cases h2 : hasInfix trig t = true
  · exfalso
    rcases hshape with rfl | rfl
    · rw [hasInfix_pattern_weaken h2] at ht
      cases ht
    · rw [hasInfix_pattern_weaken h2] at ht
      cases ht
  · simpa using h2

/-- Interior positions of a rendered src reference start no match of a
src-style pattern prefix. -/
theorem xml_inner_nomatch (pre : List Char) (hpre : pre ≠ [])
    (hpreU : pre.all safeChar = false)
    (hoD : ∀ k, k < srcDq.length → 1 ≤ k → ¬((srcDq.drop k).head? = pre.head?))
    (hoS : ∀ k, k < srcSq.length → 1 ≤ k → ¬((srcSq.drop k).head? = pre.head?))
    (hcD : ¬(some qc = pre.head?)) (hcS : ¬(some apc = pre.head?))
    (hmD : ∀ k, k < pre.length → (pre.take k).all safeChar = true →
        ¬((pre.drop k).head? = some qc))
    (hmS : ∀ k, k < pre.length → (pre.take k).all safeChar = true →
        ¬((pre.drop k).head? = some apc))
    {r : SrcRef} {cont u v : List Char} (hrp : r.path.all safeChar = true)
    (huv : renderSrcRef r = u ++ v) (hu : u ≠ []) (hv : v ≠ []) :
    startsWith pre (v ++ cont) = false := by
  cases hq : r.dquoted with
  | true =>
      have hrender : renderSrcRef r = srcDq ++ (r.path ++ [qc]) := by
        unfold renderSrcRef
        rw [if_pos hq]
      rw [hrender] at huv
      refine piece_suffix_nomatch huv hu hv hrp hpre hpreU (by simp) hoD ?_ ?_
      · intro k hk
        have hk0 : k = 0 := by
          simp only [List.length_cons, List.length_nil] at hk
          omega
        subst hk0
        exact hcD
      · intro k hk htk
        exact hmD k hk htk
  | false =>
      have hrender : renderSrcRef r = srcSq ++ (r.path ++ [apc]) := by
        unfold renderSrcRef
        rw [if_neg (by rw [hq]; simp)]
      rw [hrender] at huv
      refine piece_suffix_nomatch huv hu hv hrp hpre hpreU (by simp) hoS ?_ ?_
      · intro k hk
        have hk0 : k = 0 := by
          simp only [List.length_cons, List.length_nil] at hk
          omega
        subst hk0
        exact hcS
      · intro k hk htk
        exact hmS k hk htk

/-- Semantic action of the pattern src="([^"]*/OLD)" on one reference. -/
def xmlAct1 (old new : List Char) (r : SrcRef) : SrcRef :=
  if r.dquoted && endsWith ('/' :: old) r.path then
    SrcRef.mk true (pyReplace old new r.path)
  else r

/-- Semantic action of the pattern src='([^']*/OLD)' on one reference. -/
def xmlAct2 (old new : List Char) (r : SrcRef) : SrcRef :=
  if !r.dquoted && endsWith ('/' :: old) r.path then
    SrcRef.mk true (pyReplace old new r.path)
  else r

/-- Semantic action of a literal pattern src="PFX OLD" on one reference. -/
def xmlActLit (pfx old new : List Char) (r : SrcRef) : SrcRef :=
  if r.dquoted && (r.path == pfx ++ old) then
    SrcRef.mk true (pyReplace old new r.path)
  else r

/-- Combined semantic action of one mapping entry on one reference. -/
def xmlEntryAct (old new : List Char) (r : SrcRef) : SrcRef :=
  if endsWith ('/' :: old) r.path then
    SrcRef.mk true (pyReplace old new r.path)
  else r

theorem renderSrcRef_dq {r : SrcRef} (hq : r.dquoted = true) :
    renderSrcRef r = srcDq ++ (r.path ++ [qc]) := by
  unfold renderSrcRef
  rw [if_pos hq]

theorem renderSrcRef_sq {r : SrcRef} (hq : r.dquoted = false) :
    renderSrcRef r = srcSq ++ (r.path ++ [apc]) := by
  unfold renderSrcRef
  rw [if_neg (by rw [hq]; simp)]

theorem xmlPass1_start (old new : List Char) (r : SrcRef) (cont : List Char)
    (hrp : r.path.all safeChar = true) :
    (tryDelim srcDq qc old [] (renderSrcRef r ++ cont) = none
      ∧ xmlAct1 old new r = r)
    ∨ ∃ g, tryDelim srcDq qc old [] (renderSrcRef r ++ cont)
        = some ((renderSrcRef r).length, g)
        ∧ mkSrc old new g = renderSrcRef (xmlAct1 old new r) := by
  cases hq : r.dquoted with
  | false =>
      left
      refine ⟨tryDelim_none ?_, ?_⟩
      · rw [renderSrcRef_sq hq, List.append_assoc]
        exact startsWith_srcDq_srcSq _
      · unfold xmlAct1
        rw [hq]
        simp
  | true =>
      have hshape : renderSrcRef r ++ cont = srcDq ++ (r.path ++ qc :: cont) := by
        rw [renderSrcRef_dq hq]
        simp
      have heval := @tryDelim_eval srcDq qc old [] r.path cont
        (all_safe_ne hrp (by decide))
      cases hends : endsWith ('/' :: old) r.path with
      | false =>
          left
          refine ⟨?_, ?_⟩
          · rw [hshape, heval, hends]
            simp
          · unfold xmlAct1
            rw [hends]
            simp
      | true =>
          right
          refine ⟨r.path, ?_, ?_⟩
          · rw [hshape, heval, hends, if_pos rfl, stripPre_nil_pre]
            have hlen : srcDq.length + r.path.length + 1 + ([] : List Char).length
                = (renderSrcRef r).length := by
              rw [renderSrcRef_dq hq]
              simp [srcDq]
              omega
            rw [hlen]
          · unfold xmlAct1
            rw [hq, hends]
            show mkSrc old new r.path
              = renderSrcRef (SrcRef.mk true (pyReplace old new r.path))
            unfold mkSrc renderSrcRef
            simp

theorem xmlPass2_start (old new : List Char) (r : SrcRef) (cont : List Char)
    (hrp : r.path.all safeChar = true) :
    (tryDelim srcSq apc old [] (renderSrcRef r ++ cont) = none
      ∧ xmlAct2 old new r = r)
    ∨ ∃ g, tryDelim srcSq apc old [] (renderSrcRef r ++ cont)
        = some ((renderSrcRef r).length, g)
        ∧ mkSrc old new g = renderSrcRef (xmlAct2 old new r) := by
  cases hq : r.dquoted with
  | true =>
      left
      refine ⟨tryDelim_none ?_, ?_⟩
      · rw [renderSrcRef_dq hq, List.append_assoc]
        exact startsWith_srcSq_srcDq _
      · unfold xmlAct2
        rw [hq]
        simp
  | false =>
      have hshape : renderSrcRef r ++ cont = srcSq ++ (r.path ++ apc :: cont) := by
        rw [renderSrcRef_sq hq]
        simp
      have heval := @tryDelim_eval srcSq apc old [] r.path cont
        (all_safe_ne hrp (by decide))
      cases hends : endsWith ('/' :: old) r.path with
      | false =>
          left
          refine ⟨?_, ?_⟩
          · rw [hshape, heval, hends]
            simp
          · unfold xmlAct2
            rw [hends]
            simp
      | true =>
          right
          refine ⟨r.path, ?_, ?_⟩
          · rw [hshape, heval, hends, if_pos rfl, stripPre_nil_pre]
            have hlen : srcSq.length + r.path.length + 1 + ([] : List Char).length
                = (renderSrcRef r).length := by
              rw [renderSrcRef_sq hq]
              simp [srcSq]
              omega
            rw [hlen]
          · unfold xmlAct2
            rw [hq, hends]
            show mkSrc old new r.path
              = renderSrcRef (SrcRef.mk true (pyReplace old new r.path))
            unfold mkSrc renderSrcRef
            simp

theorem xmlPass1_doc (old new : List Char) (t0 : List Char)
    (l : List (SrcRef × List Char)) (ht0 : safeTextX t0 = true)
    (hl : safeXmlBody l = true) :
    xmlPass1 old new (t0 ++ renderXmlBody l)
      = t0 ++ renderXmlBody (mapBody (xmlAct1 old new) l) := by
  unfold xmlPass1
  refine doc_pass ?_ ?_ ?_ ?_ l t0 ht0 hl
  · intro s len g h
    exact tryDelim_pos h
  · intro t cont hst hcont u v huv hv
    exact tryDelim_none (text_skip_nomatch
      (safeTextX_no_trig (Or.inl rfl) hst) hcont (by decide) u v huv hv)
  · intro r cont hrp u v huv hu hv
    exact tryDelim_none (xml_inner_nomatch srcDq (by decide) (by decide)
      (by decide) (by decide) (by decide) (by decide) (by decide) (by decide)
      hrp huv hu hv)
  · exact fun r cont hrp => xmlPass1_start old new r cont hrp

theorem xmlPass2_doc (old new : List Char) (t0 : List Char)
    (l : List (SrcRef × List Char)) (ht0 : safeTextX t0 = true)
    (hl : safeXmlBody l = true) :
    xmlPass2 old new (t0 ++ renderXmlBody l)
      = t0 ++ renderXmlBody (mapBody (xmlAct2 old new) l) := by
  unfold xmlPass2
  refine doc_pass ?_ ?_ ?_ ?_ l t0 ht0 hl
  · intro s len g h
    exact tryDelim_pos h
  · intro t cont hst hcont u v huv hv
    exact tryDelim_none (text_skip_nomatch
      (safeTextX_no_trig (Or.inr rfl) hst) hcont (by decide) u v huv hv)
  · intro r cont hrp u v huv hu hv
    exact tryDelim_none (xml_inner_nomatch srcSq (by decide) (by decide)
      (by decide) (by decide) (by decide) (by decide) (by decide) (by decide)
      hrp huv hu hv)
  · exact fun r cont hrp => xmlPass2_start old new r cont hrp

theorem xmlPassLit_start (pfx old new : List Char)
    (hpfx_safe : pfx.all safeChar = true) (hold_safe : old.all safeChar = true)
    (r : SrcRef) (cont : List Char) (hrp : r.path.all safeChar = true) :
    (tryLit (srcDq ++ pfx ++ old ++ [qc]) (pfx ++ old) (renderSrcRef r ++ cont)
        = none ∧ xmlActLit pfx old new r = r)
    ∨ ∃ g, tryLit (srcDq ++ pfx ++ old ++ [qc]) (pfx ++ old)
          (renderSrcRef r ++ cont)
        = some ((renderSrcRef r).length, g)
        ∧ mkSrc old new g = renderSrcRef (xmlActLit pfx old new r) := by
  cases hq : r.dquoted with
  | false =>
      left
      refine ⟨tryLit_none ?_, ?_⟩
      · by_cases h : startsWith (srcDq ++ pfx ++ old ++ [qc])
            (renderSrcRef r ++ cont) = true
        · exfalso
          have h2 : startsWith srcDq (renderSrcRef r ++ cont) = true := by
            rw [show srcDq ++ pfx ++ old ++ [qc]
                = srcDq ++ (pfx ++ (old ++ [qc])) from by simp] at h
            exact startsWith_append_weaken h
          rw [renderSrcRef_sq hq, List.append_assoc,
            startsWith_srcDq_srcSq] at h2
          cases h2
        · simpa using h
      · unfold xmlActLit
        rw [hq]
        simp
  | true =>
      by_cases hpeq : r.path = pfx ++ old
      · right
        refine ⟨pfx ++ old, ?_, ?_⟩
        · unfold tryLit
          have hlit : srcDq ++ pfx ++ old ++ [qc] = renderSrcRef r := by
            rw [renderSrcRef_dq hq, hpeq]
            simp
          rw [hlit, if_pos (startsWith_self_append _ _)]
        · unfold xmlActLit
          rw [hq, show (r.path == pfx ++ old) = true from by
            rw [hpeq]
            simp]
          simp only [Bool.and_self, if_pos rfl]
          rw [← hpeq]
          show mkSrc old new r.path
            = renderSrcRef (SrcRef.mk true (pyReplace old new r.path))
          unfold mkSrc renderSrcRef
          simp
      · left
        refine ⟨tryLit_none ?_, ?_⟩
        · rw [renderSrcRef_dq hq]
          rw [show srcDq ++ pfx ++ old ++ [qc]
              = srcDq ++ ((pfx ++ old) ++ [qc]) from by simp]
          rw [show (srcDq ++ (r.path ++ [qc])) ++ cont
              = srcDq ++ (r.path ++ qc :: cont) from by simp]
          rw [startsWith_append_right]
          exact startsWith_block_quoteEnd
            (by rw [List.all_append, hpfx_safe, hold_safe]; rfl) hrp hpeq
            (by decide)
        · unfold xmlActLit
          rw [show (r.path == pfx ++ old) = false from by
            simp only [beq_eq_false_iff_ne, ne_eq]
            exact hpeq]
          simp

theorem xmlPassLit_doc (pfx old new : List Char)
    (hpfx_safe : pfx.all safeChar = true) (hold_safe : old.all safeChar = true)
    (t0 : List Char) (l : List (SrcRef × List Char))
    (ht0 : safeTextX t0 = true) (hl : safeXmlBody l = true) :
    xmlPassLit pfx old new (t0 ++ renderXmlBody l)
      = t0 ++ renderXmlBody (mapBody (xmlActLit pfx old new) l) := by
  unfold xmlPassLit
  refine doc_pass ?_ ?_ ?_ ?_ l t0 ht0 hl
  · intro s len g h
    refine tryLit_pos ?_ h
    simp [srcDq]
  · intro t cont hst hcont u v huv hv
    apply tryLit_none
    by_cases h : startsWith (srcDq ++ pfx ++ old ++ [qc]) (v ++ cont) = true
    · exfalso
      have h2 : startsWith srcDq (v ++ cont) = true := by
        rw [show srcDq ++ pfx ++ old ++ [qc]
            = srcDq ++ (pfx ++ (old ++ [qc])) from by simp] at h
        exact startsWith_append_weaken h
      have h3 : startsWith srcDq (v ++ cont) = false :=
        text_skip_nomatch (safeTextX_no_trig (Or.inl rfl) hst) hcont
          (by decide) u v huv hv
      rw [h3] at h2
      exact Bool.noConfusion h2
    · simpa using h
  · intro r cont hrp u v huv hu hv
    apply tryLit_none
    by_cases h : startsWith (srcDq ++ pfx ++ old ++ [qc]) (v ++ cont) = true
    · exfalso
      have h2 : startsWith srcDq (v ++ cont) = true := by
        rw [show srcDq ++ pfx ++ old ++ [qc]
            = srcDq ++ (pfx ++ (old ++ [qc])) from by simp] at h
        exact startsWith_append_weaken h
      have h3 : startsWith srcDq (v ++ cont) = false :=
        xml_inner_nomatch srcDq (by decide) (by decide) (by decide)
          (by decide) (by decide) (by decide) (by decide) (by decide)
          hrp huv hu hv
      rw [h3] at h2
      exact Bool.noConfusion h2
    · simpa using h
  · exact fun r cont hrp =>
      xmlPassLit_start pfx old new hpfx_safe hold_safe r cont hrp

theorem xmlActLit_tail_id (pfx pw old new : List Char)
    (hpw : pfx = pw ++ ['/'])
    (hos : old.all (fun c => c != '/') = true)
    (hns : new.all (fun c => c != '/') = true)
    (P w : List Char) (hP : P = w ++ '/' :: new) :
    xmlActLit pfx old new (SrcRef.mk true P) = SrcRef.mk true P := by
  by_cases hc : P = pfx ++ old
  · have heq : w ++ '/' :: new = pw ++ '/' :: old := by
      rw [← hP, hc, hpw]
      simp
    have hno : new = old := slash_suffix_unique hns hos heq
    simp [xmlActLit, hc, hno, pyReplace_self]
  · simp [xmlActLit, hc]

theorem xmlActLit_notail_id (pfx pw old new : List Char)
    (hpw : pfx = pw ++ ['/'])
    (r : SrcRef) (hm : endsWith ('/' :: old) r.path = false) :
    xmlActLit pfx old new r = r := by
  have hc : r.path ≠ pfx ++ old := by
    intro h
    have hend : endsWith ('/' :: old) r.path = true := by
      rw [h, hpw, List.append_assoc]
      exact endsWith_append pw ('/' :: old)
    exact Bool.noConfusion (hend.symm.trans hm)
  simp [xmlActLit, hc]

theorem xmlActs_compose (old new : List Char) (hne : old ≠ [])
    (hos : old.all (fun c => c != '/') = true)
    (hns : new.all (fun c => c != '/') = true) (r : SrcRef) :
    xmlActLit "./images/".toList old new
      (xmlActLit "../images/".toList old new
        (xmlActLit "images/".toList old new
          (xmlAct2 old new (xmlAct1 old new r))))
      = xmlEntryAct old new r := by
  by_cases hm : endsWith ('/' :: old) r.path = true
  · obtain ⟨u, hu⟩ := endsWith_iff.1 hm
    have h12 : xmlAct2 old new (xmlAct1 old new r)
        = SrcRef.mk true (pyReplace old new r.path) := by
      cases hq : r.dquoted with
      | true =>
          have h1 : xmlAct1 old new r
              = SrcRef.mk true (pyReplace old new r.path) := by
            simp [xmlAct1, hq, hm]
          rw [h1]
          simp [xmlAct2]
      | false =>
          have h1 : xmlAct1 old new r = r := by
            simp [xmlAct1, hq]
          rw [h1]
          simp [xmlAct2, hq, hm]
    rw [h12]
    have htail : ∃ w, pyReplace old new r.path = w ++ '/' :: new := by
      rw [hu]
      exact strReplace_tail hne hos (u ++ '/' :: old).length u le_rfl
    obtain ⟨w, hw⟩ := htail
    rw [xmlActLit_tail_id "images/".toList "images".toList old new
        (by decide) hos hns _ w hw,
      xmlActLit_tail_id "../images/".toList "../images".toList old new
        (by decide) hos hns _ w hw,
      xmlActLit_tail_id "./images/".toList "./images".toList old new
        (by decide) hos hns _ w hw]
    simp [xmlEntryAct, hm]
  · have hmf : endsWith ('/' :: old) r.path = false := by
      cases h : endsWith ('/' :: old) r.path
      · rfl
      · exact absurd h hm
    have h1 : xmlAct1 old new r = r := by simp [xmlAct1, hmf]
    have h2 : xmlAct2 old new r = r := by simp [xmlAct2, hmf]
    rw [h1, h2,
      xmlActLit_notail_id "images/".toList "images".toList old new
        (by decide) r hmf,
      xmlActLit_notail_id "../images/".toList "../images".toList old new
        (by decide) r hmf,
      xmlActLit_notail_id "./images/".toList "./images".toList old new
        (by decide) r hmf]
    simp [xmlEntryAct, hmf]

theorem pyReplace_safe {f : Char → Bool} (old new : List Char)
    (hnew : new.all f = true) (s : List Char) (hs : s.all f = true) :
    (pyReplace old new s).all f = true := by
  unfold pyReplace
  exact strReplace_all old new hnew s.length s hs

theorem xmlAct1_safe (old new : List Char) (hn : new.all safeChar = true)
    (r : SrcRef) (hr : r.path.all safeChar = true) :
    ((xmlAct1 old new r).path).all safeChar = true := by
  unfold xmlAct1
  split_ifs with h
  · exact pyReplace_safe old new hn r.path hr
  · exact hr

theorem xmlAct2_safe (old new : List Char) (hn : new.all safeChar = true)
    (r : SrcRef) (hr : r.path.all safeChar = true) :
    ((xmlAct2 old new r).path).all safeChar = true := by
  unfold xmlAct2
  split_ifs with h
  · exact pyReplace_safe old new hn r.path hr
  · exact hr

theorem xmlActLit_safe (pfx old new : List Char)
    (hn : new.all safeChar = true)
    (r : SrcRef) (hr : r.path.all safeChar = true) :
    ((xmlActLit pfx old new r).path).all safeChar = true := by
  unfold xmlActLit
  split_ifs with h
  · exact pyReplace_safe old new hn r.path hr
  · exact hr

theorem xmlEntryAct_safe (old new : List Char) (hn : new.all safeChar = true)
    (r : SrcRef) (hr : r.path.all safeChar = true) :
    ((xmlEntryAct old new r).path).all safeChar = true := by
  unfold xmlEntryAct
  split_ifs with h
  · exact pyReplace_safe old new hn r.path hr
  · exact hr

theorem safeXmlBody_mapBody (f : SrcRef → SrcRef)
    (hf : ∀ r : SrcRef, r.path.all safeChar = true →
      ((f r).path).all safeChar = true)
    (l : List (SrcRef × List Char)) (hl : safeXmlBody l = true) :
    safeXmlBody (mapBody f l) = true := by
  unfold safeXmlBody at hl ⊢
  unfold mapBody
  rw [List.all_map, List.all_eq_true]
  rw [List.all_eq_true] at hl
  intro rt hrt
  have h := hl rt hrt
  rw [Bool.and_eq_true] at h
  simp only [Function.comp_apply]
  rw [Bool.and_eq_true]
  exact ⟨hf rt.1 h.1, h.2⟩

theorem mapBody_mapBody (f g : SrcRef → SrcRef)
    (l : List (SrcRef × List Char)) :
    mapBody f (mapBody g l) = mapBody (fun r => f (g r)) l := by
  unfold mapBody
  rw [List.map_map]
  rfl

theorem mapBody_congr (f g : SrcRef → SrcRef) (h : ∀ r, f r = g r)
    (l : List (SrcRef × List Char)) : mapBody f l = mapBody g l := by
  unfold mapBody
  refine List.map_congr_left ?_
  intro a _
  rw [h a.1]

theorem applyXmlEntry_doc (old new : List Char) (hne : old ≠ [])
    (hos : old.all (fun c => c != '/') = true)
    (hns : new.all (fun c => c != '/') = true)
    (hso : old.all safeChar = true) (hsn : new.all safeChar = true)
    (t0 : List Char) (l : List (SrcRef × List Char))
    (ht0 : safeTextX t0 = true) (hl : safeXmlBody l = true) :
    applyXmlEntry old new (t0 ++ renderXmlBody l)
      = t0 ++ renderXmlBody (mapBody (xmlEntryAct old new) l) := by
  have hl1 : safeXmlBody (mapBody (xmlAct1 old new) l) = true :=
    safeXmlBody_mapBody _ (xmlAct1_safe old new hsn) l hl
  have hl2 : safeXmlBody
      (mapBody (xmlAct2 old new) (mapBody (xmlAct1 old new) l)) = true :=
    safeXmlBody_mapBody _ (xmlAct2_safe old new hsn) _ hl1
  have hl3 := safeXmlBody_mapBody _
    (xmlActLit_safe "images/".toList old new hsn) _ hl2
  have hl4 := safeXmlBody_mapBody _
    (xmlActLit_safe "../images/".toList old new hsn) _ hl3
  unfold applyXmlEntry
  rw [xmlPass1_doc old new t0 l ht0 hl,
    xmlPass2_doc old new t0 _ ht0 hl1,
    xmlPassLit_doc "images/".toList old new (by decide) hso t0 _ ht0 hl2,
    xmlPassLit_doc "../images/".toList old new (by decide) hso t0 _ ht0 hl3,
    xmlPassLit_doc "./images/".toList old new (by decide) hso t0 _ ht0 hl4]
  congr 1
  rw [mapBody_mapBody, mapBody_mapBody, mapBody_mapBody, mapBody_mapBody]
  congr 1
  exact mapBody_congr _ _ (fun r => xmlActs_compose old new hne hos hns r) l

/-- Semantic action of the whole mapping fold of update_xml_references on
one reference: the per-entry actions applied in mapping order, on the
basenames of the mapping entries. -/
def xmlMapAct (M : List (List Char × List Char)) (r : SrcRef) : SrcRef :=
  M.foldl (fun r2 e => xmlEntryAct (basename e.1) (basename e.2) r2) r

theorem update_xml_doc (M : List (List Char × List Char))
    (hM : ∀ e ∈ M, basename e.1 ≠ []
      ∧ (basename e.1).all safeChar = true
      ∧ (basename e.2).all safeChar = true) :
    ∀ (t0 : List Char) (l : List (SrcRef × List Char)),
      safeTextX t0 = true → safeXmlBody l = true →
      update_xml_references M (t0 ++ renderXmlBody l)
        = t0 ++ renderXmlBody (mapBody (xmlMapAct M) l) := by
  induction M with
  | nil =>
      intro t0 l ht0 hl
      have hid : mapBody (xmlMapAct []) l = l := by
        unfold mapBody xmlMapAct
        simp
      rw [hid]
      rfl
  | cons e M ih =>
      intro t0 l ht0 hl
      obtain ⟨hne, hso, hsn⟩ := hM e (List.mem_cons_self e M)
      have hstep : update_xml_references (e :: M) (t0 ++ renderXmlBody l)
          = update_xml_references M
              (applyXmlEntry (basename e.1) (basename e.2)
                (t0 ++ renderXmlBody l)) := by
        unfold update_xml_references
        rw [List.foldl_cons]
      rw [hstep,
        applyXmlEntry_doc (basename e.1) (basename e.2) hne
          (basename_no_slash e.1) (basename_no_slash e.2) hso hsn t0 l ht0 hl,
        ih (fun e2 he2 => hM e2 (List.mem_cons_of_mem e he2)) t0 _ ht0
          (safeXmlBody_mapBody _
            (xmlEntryAct_safe (basename e.1) (basename e.2) hsn) l hl),
        mapBody_mapBody]
      congr 2

/-- C6: the HTML/XHTML rewriter, applied to a document whose inert text
never contains "src=" and whose reference paths avoid quotes, parentheses
and the equals sign, rewrites exactly those src references whose path ends
in '/' followed by the old filename -- any directory prefix is tolerated;
on a match, when the old filename occurs in the path only as its final
segment, exactly that filename segment is replaced by the new filename;
the output reference is always emitted in double quotes (a single-quoted
match is normalized, not preserved), and a reference whose path does not
end in '/' plus the old filename -- in particular a bare filename with no
directory prefix -- is left completely unchanged. -/
theorem C6_xml_rewrite (old new : List Char) (hne : old ≠ [])
    (hos : old.all (fun c => c != '/') = true)
    (hns : new.all (fun c => c != '/') = true)
    (hso : old.all safeChar = true) (hsn : new.all safeChar = true)
    (t0 : List Char) (l : List (SrcRef × List Char))
    (ht0 : safeTextX t0 = true) (hl : safeXmlBody l = true) :
    applyXmlEntry old new (t0 ++ renderXmlBody l)
        = t0 ++ renderXmlBody (mapBody (xmlEntryAct old new) l)
      ∧ (∀ r : SrcRef, endsWith ('/' :: old) r.path = false →
          xmlEntryAct old new r = r)
      ∧ (∀ (r : SrcRef) (u : List Char), r.path = u ++ '/' :: old →
          hasInfix old u = false →
          xmlEntryAct old new r = SrcRef.mk true (u ++ '/' :: new)) := by
  refine ⟨applyXmlEntry_doc old new hne hos hns hso hsn t0 l ht0 hl, ?_, ?_⟩
  · intro r hm
    unfold xmlEntryAct
    rw [if_neg]
    rw [hm]
    exact Bool.false_ne_true
  · intro r u hru hinf
    unfold xmlEntryAct
    rw [if_pos]
    · rw [hru]
      unfold pyReplace
      rw [strReplace_clean hne hos (u ++ '/' :: old).length u le_rfl hinf]
    · rw [hru]
      exact endsWith_append u ('/' :: old)

theorem C6_xml_rewrite_witness :
    applyXmlEntry "bg.jpg".toList "bg.png".toList
        ("<p>".toList ++ renderXmlBody
          [(SrcRef.mk true "../images/bg.jpg".toList, " ".toList),
           (SrcRef.mk false "images/bg.jpg".toList, " ".toList),
           (SrcRef.mk false "bg.jpg".toList, [])])
      = "<p>".toList ++ renderXmlBody
          (mapBody (xmlEntryAct "bg.jpg".toList "bg.png".toList)
            [(SrcRef.mk true "../images/bg.jpg".toList, " ".toList),
             (SrcRef.mk false "images/bg.jpg".toList, " ".toList),
             (SrcRef.mk false "bg.jpg".toList, [])])
    ∧ mapBody (xmlEntryAct "bg.jpg".toList "bg.png".toList)
          [(SrcRef.mk true "../images/bg.jpg".toList, " ".toList),
           (SrcRef.mk false "images/bg.jpg".toList, " ".toList),
           (SrcRef.mk false "bg.jpg".toList, [])]
        = [(SrcRef.mk true "../images/bg.png".toList, " ".toList),
           (SrcRef.mk true "images/bg.png".toList, " ".toList),
           (SrcRef.mk false "bg.jpg".toList, [])] :=
  ⟨(C6_xml_rewrite "bg.jpg".toList "bg.png".toList (by decide) (by decide)
      (by decide) (by decide) (by decide) "<p>".toList
      [(SrcRef.mk true "../images/bg.jpg".toList, " ".toList),
       (SrcRef.mk false "images/bg.jpg".toList, " ".toList),
       (SrcRef.mk false "bg.jpg".toList, [])]
      (by decide) (by decide)).1,
   by decide⟩

/-! ### A structural model of CSS content: inert text and url references -/

/-- The three quoting forms of a url(...) reference. -/
inductive CssKind where
  | dq : CssKind
  | sq : CssKind
  | bare : CssKind
deriving DecidableEq

/-- A url reference url("path"), url('path') or url(path). -/
structure CssRef where
  kind : CssKind
  path : List Char
deriving DecidableEq

def renderCssRef (r : CssRef) : List Char :=
  match r.kind with
  | CssKind.dq => urlDq ++ (r.path ++ [qc, ')'])
  | CssKind.sq => urlSq ++ (r.path ++ [apc, ')'])
  | CssKind.bare => urlBare ++ (r.path ++ [')'])

/-- A CSS document body: a list of url references, each followed by inert
text. -/
def renderCssBody : List (CssRef × List Char) → List Char
  | [] => []
  | (r, t) :: rest => renderCssRef r ++ (t ++ renderCssBody rest)

/-- Inert CSS text is safe when it cannot start a url reference. -/
def safeTextC (t : List Char) : Bool := !(hasInfix urlBare t)

def safeCssBody (l : List (CssRef × List Char)) : Bool :=
  l.all (fun rt => rt.1.path.all safeChar && safeTextC rt.2)

def mapBodyC (f : CssRef → CssRef) (l : List (CssRef × List Char)) :
    List (CssRef × List Char) :=
  l.map (fun rt => (f rt.1, rt.2))

theorem renderCssRef_head (r : CssRef) : ∃ z, renderCssRef r = 'u' :: z := by
  unfold renderCssRef
  cases r.kind
  · exact ⟨_, rfl⟩
  · exact ⟨_, rfl⟩
  · exact ⟨_, rfl⟩

theorem safeTextC_no_trig {t trig : List Char}
    (hshape : trig = urlBare ++ [qc] ∨ trig = urlBare ++ [apc]
      ∨ trig = urlBare)
    (ht : safeTextC t = true) : hasInfix trig t = false := by
  unfold safeTextC at ht
  rw [Bool.not_eq_true'] at ht
  by_cases h2 : hasInfix trig t = true
  · exfalso
    rcases hshape with rfl | rfl | rfl
    · rw [hasInfix_pattern_weaken h2] at ht
      cases ht
    · rw [hasInfix_pattern_weaken h2] at ht
      cases ht
    · rw [h2] at ht
      cases ht
  · simpa using h2

theorem doc_passC {tp : List Char → Option (Nat × List Char)}
    {mk : List Char → List Char} {act : CssRef → CssRef}
    (hpos : ∀ s len g, tp s = some (len, g) → 1 ≤ len)
    (htext : ∀ t cont : List Char, safeTextC t = true →
        (cont = [] ∨ ∃ z, cont = 'u' :: z) →
        ∀ u v : List Char, t = u ++ v → v ≠ [] → tp (v ++ cont) = none)
    (hpiece : ∀ (r : CssRef) (cont : List Char), r.path.all safeChar = true →
        ∀ u v : List Char, renderCssRef r = u ++ v → u ≠ [] → v ≠ [] →
          tp (v ++ cont) = none)
    (hstart : ∀ (r : CssRef) (cont : List Char), r.path.all safeChar = true →
        (tp (renderCssRef r ++ cont) = none ∧ act r = r)
        ∨ ∃ g, tp (renderCssRef r ++ cont) = some ((renderCssRef r).length, g)
            ∧ mk g = renderCssRef (act r)) :
    ∀ (l : List (CssRef × List Char)) (t0 : List Char),
      safeTextC t0 = true → safeCssBody l = true →
      reSub tp mk (t0 ++ renderCssBody l)
        = t0 ++ renderCssBody (mapBodyC act l) := by
  intro l
  induction l with
  | nil =>
      intro t0 ht0 _
      show reSub tp mk (t0 ++ []) = t0 ++ renderCssBody []
      rw [reSub_skip (htext t0 [] ht0 (Or.inl rfl))]
      rfl
  | cons rt rest ih =>
      obtain ⟨r, t⟩ := rt
      intro t0 ht0 hbody
      rw [show safeCssBody ((r, t) :: rest)
          = ((r.path.all safeChar && safeTextC t) && safeCssBody rest) from by
        simp [safeCssBody]] at hbody
      rw [Bool.and_eq_true, Bool.and_eq_true] at hbody
      obtain ⟨⟨hrp, htt⟩, hrest⟩ := hbody
      show reSub tp mk (t0 ++ (renderCssRef r ++ (t ++ renderCssBody rest)))
        = t0 ++ renderCssBody (mapBodyC act ((r, t) :: rest))
      obtain ⟨z, hz⟩ := renderCssRef_head r
      rw [reSub_skip (htext t0 (renderCssRef r ++ (t ++ renderCssBody rest))
        ht0 (Or.inr ⟨z ++ (t ++ renderCssBody rest), by rw [hz]; rfl⟩))]
      congr 1
      rcases hstart r (t ++ renderCssBody rest) hrp with
        ⟨hnone, hactr⟩ | ⟨g, hsome, hmk⟩
      · have hnm2 : ∀ u v : List Char, renderCssRef r = u ++ v → v ≠ [] →
            tp (v ++ (t ++ renderCssBody rest)) = none := by
          intro u v huv hv
          cases u with
          | nil =>
              rw [List.nil_append] at huv
              rw [← huv]
              exact hnone
          | cons a u2 => exact hpiece r _ hrp (a :: u2) v huv (by simp) hv
        rw [reSub_skip hnm2]
        rw [ih t htt hrest]
        show renderCssRef r ++ (t ++ renderCssBody (mapBodyC act rest))
          = renderCssRef (act r) ++ (t ++ renderCssBody (mapBodyC act rest))
        rw [hactr]
      · have hcons : renderCssRef r ++ (t ++ renderCssBody rest)
            = 'u' :: (z ++ (t ++ renderCssBody rest)) := by
          rw [hz]
          rfl
        rw [hcons]
        rw [reSub_match hpos (by rw [← hcons]; exact hsome)]
        have hdrop : ('u' :: (z ++ (t ++ renderCssBody rest))).drop
            (renderCssRef r).length = t ++ renderCssBody rest := by
          rw [← hcons]
          exact List.drop_left _ _
        rw [hdrop, ih t htt hrest, hmk]
        rfl

theorem endsWith_snoc_notSafe {old : List Char} {b : Char} (w : List Char)
    (hold : old.all safeChar = true) (hb : safeChar b = false) :
    endsWith ('/' :: old) (w ++ [b]) = false := by
  unfold endsWith
  have h1 : (w ++ [b]).reverse = b :: w.reverse := by simp
  have h2 : ('/' :: old).reverse = old.reverse ++ ['/'] := by simp
  rw [h1, h2]
  cases hor : old.reverse with
  | nil =>
      rw [List.nil_append, startsWith_cons_cons]
      have hne : ('/' == b) = false := by
        rw [beq_eq_false_iff_ne]
        intro he
        rw [← he] at hb
        exact Bool.noConfusion
          ((show safeChar '/' = true by decide).symm.trans hb)
      rw [hne]
      rfl
  | cons d q =>
      rw [List.cons_append, startsWith_cons_cons]
      have hd : d ∈ old := by
        have hmem : d ∈ old.reverse := by
          rw [hor]
          exact List.mem_cons_self d q
        simpa using hmem
      have hds : safeChar d = true := List.all_eq_true.1 hold d hd
      have hne : (d == b) = false := by
        rw [beq_eq_false_iff_ne]
        intro he
        rw [he] at hds
        exact Bool.noConfusion (hds.symm.trans hb)
      rw [hne]
      rfl

theorem startsWith_quote_path_close {d e : Char} {path : List Char}
    (hd : safeChar d = false) (hpath : path.all safeChar = true)
    (he : (d == e) = false) (cont : List Char) :
    startsWith [d] (path ++ e :: cont) = false := by
  cases path with
  | nil =>
      rw [List.nil_append, startsWith_cons_cons, he]
      rfl
  | cons c p2 =>
      rw [List.cons_append, startsWith_cons_cons]
      have hcs : safeChar c = true :=
        List.all_eq_true.1 hpath c (List.mem_cons_self c p2)
      have hne : (d == c) = false := by
        rw [beq_eq_false_iff_ne]
        intro hh
        rw [hh] at hd
        exact Bool.noConfusion (hcs.symm.trans hd)
      rw [hne]
      rfl

theorem renderCssRef_dq {r : CssRef} (h : r.kind = CssKind.dq) :
    renderCssRef r = urlDq ++ (r.path ++ [qc, ')']) := by
  unfold renderCssRef
  rw [h]

theorem renderCssRef_sq {r : CssRef} (h : r.kind = CssKind.sq) :
    renderCssRef r = urlSq ++ (r.path ++ [apc, ')']) := by
  unfold renderCssRef
  rw [h]

theorem renderCssRef_bare {r : CssRef} (h : r.kind = CssKind.bare) :
    renderCssRef r = urlBare ++ (r.path ++ [')']) := by
  unfold renderCssRef
  rw [h]

/-- Semantic action of the pattern url\("([^"]*/OLD)"\) on one url
reference. -/
def cssAct1 (old new : List Char) (r : CssRef) : CssRef :=
  if r.kind = CssKind.dq ∧ endsWith ('/' :: old) r.path = true then
    CssRef.mk CssKind.dq (pyReplace old new r.path)
  else r

/-- Semantic action of the pattern url\('([^']*/OLD)'\) on one url
reference. -/
def cssAct2 (old new : List Char) (r : CssRef) : CssRef :=
  if r.kind = CssKind.sq ∧ endsWith ('/' :: old) r.path = true then
    CssRef.mk CssKind.dq (pyReplace old new r.path)
  else r

/-- Semantic action of the pattern url\(([^)]*/OLD)\) on one url
reference. -/
def cssAct3 (old new : List Char) (r : CssRef) : CssRef :=
  if r.kind = CssKind.bare ∧ endsWith ('/' :: old) r.path = true then
    CssRef.mk CssKind.dq (pyReplace old new r.path)
  else r

/-- Combined semantic action of one mapping entry on one url reference. -/
def cssEntryAct (old new : List Char) (r : CssRef) : CssRef :=
  if endsWith ('/' :: old) r.path then
    CssRef.mk CssKind.dq (pyReplace old new r.path)
  else r

theorem cssPass1_start (old new : List Char)
    (r : CssRef) (cont : List Char) (hrp : r.path.all safeChar = true) :
    (tryDelim urlDq qc old [')'] (renderCssRef r ++ cont) = none
        ∧ cssAct1 old new r = r)
    ∨ ∃ g, tryDelim urlDq qc old [')'] (renderCssRef r ++ cont)
          = some ((renderCssRef r).length, g)
        ∧ mkUrl old new g = renderCssRef (cssAct1 old new r) := by
  cases hk : r.kind with
  | dq =>
      rw [renderCssRef_dq hk]
      rw [show (urlDq ++ (r.path ++ [qc, ')'])) ++ cont
          = urlDq ++ (r.path ++ qc :: (')' :: cont)) from by simp]
      rw [@tryDelim_eval urlDq qc old [')'] r.path (')' :: cont)
        (all_safe_ne hrp (by decide))]
      by_cases hm : endsWith ('/' :: old) r.path = true
      · right
        rw [if_pos hm,
          show stripPre [')'] (')' :: cont) = some cont from
            stripPre_self_append [')'] cont]
        refine ⟨r.path, ?_, ?_⟩
        · simp only [Option.some.injEq, Prod.mk.injEq]
          refine ⟨?_, trivial⟩
          simp only [List.length_append, List.length_cons, List.length_nil,
            urlDq, urlBare]
          omega
        · unfold cssAct1
          rw [if_pos ⟨hk, hm⟩]
          unfold mkUrl renderCssRef
          simp
      · rw [if_neg hm]
        left
        refine ⟨rfl, ?_⟩
        unfold cssAct1
        rw [if_neg]
        intro hc
        exact hm hc.2
  | sq =>
      rw [renderCssRef_sq hk]
      left
      refine ⟨tryDelim_none ?_, ?_⟩
      · rw [show (urlSq ++ (r.path ++ [apc, ')'])) ++ cont
            = urlBare ++ (apc :: ((r.path ++ [apc, ')']) ++ cont)) from by
          simp [urlSq, urlBare],
          show urlDq = urlBare ++ [qc] from rfl,
          startsWith_append_right, startsWith_cons_cons,
          show (qc == apc) = false from by decide]
        rfl
      · unfold cssAct1
        rw [if_neg]
        intro hc
        rw [hk] at hc
        exact CssKind.noConfusion hc.1
  | bare =>
      rw [renderCssRef_bare hk]
      left
      refine ⟨tryDelim_none ?_, ?_⟩
      · rw [show (urlBare ++ (r.path ++ [')'])) ++ cont
            = urlBare ++ (r.path ++ ')' :: cont) from by simp,
          show urlDq = urlBare ++ [qc] from rfl,
          startsWith_append_right]
        exact startsWith_quote_path_close (by decide) hrp (by decide) cont
      · unfold cssAct1
        rw [if_neg]
        intro hc
        rw [hk] at hc
        exact CssKind.noConfusion hc.1

theorem cssPass2_start (old new : List Char)
    (r : CssRef) (cont : List Char) (hrp : r.path.all safeChar = true) :
    (tryDelim urlSq apc old [')'] (renderCssRef r ++ cont) = none
        ∧ cssAct2 old new r = r)
    ∨ ∃ g, tryDelim urlSq apc old [')'] (renderCssRef r ++ cont)
          = some ((renderCssRef r).length, g)
        ∧ mkUrl old new g = renderCssRef (cssAct2 old new r) := by
  cases hk : r.kind with
  | sq =>
      rw [renderCssRef_sq hk]
      rw [show (urlSq ++ (r.path ++ [apc, ')'])) ++ cont
          = urlSq ++ (r.path ++ apc :: (')' :: cont)) from by simp]
      rw [@tryDelim_eval urlSq apc old [')'] r.path (')' :: cont)
        (all_safe_ne hrp (by decide))]
      by_cases hm : endsWith ('/' :: old) r.path = true
      · right
        rw [if_pos hm,
          show stripPre [')'] (')' :: cont) = some cont from
            stripPre_self_append [')'] cont]
        refine ⟨r.path, ?_, ?_⟩
        · simp only [Option.some.injEq, Prod.mk.injEq]
          refine ⟨?_, trivial⟩
          simp only [List.length_append, List.length_cons, List.length_nil,
            urlSq, urlBare]
          omega
        · unfold cssAct2
          rw [if_pos ⟨hk, hm⟩]
          unfold mkUrl renderCssRef
          simp
      · rw [if_neg hm]
        left
        refine ⟨rfl, ?_⟩
        unfold cssAct2
        rw [if_neg]
        intro hc
        exact hm hc.2
  | dq =>
      rw [renderCssRef_dq hk]
      left
      refine ⟨tryDelim_none ?_, ?_⟩
      · rw [show (urlDq ++ (r.path ++ [qc, ')'])) ++ cont
            = urlBare ++ (qc :: ((r.path ++ [qc, ')']) ++ cont)) from by
          simp [urlDq, urlBare],
          show urlSq = urlBare ++ [apc] from rfl,
          startsWith_append_right, startsWith_cons_cons,
          show (apc == qc) = false from by decide]
        rfl
      · unfold cssAct2
        rw [if_neg]
        intro hc
        rw [hk] at hc
        exact CssKind.noConfusion hc.1
  | bare =>
      rw [renderCssRef_bare hk]
      left
      refine ⟨tryDelim_none ?_, ?_⟩
      · rw [show (urlBare ++ (r.path ++ [')'])) ++ cont
            = urlBare ++ (r.path ++ ')' :: cont) from by simp,
          show urlSq = urlBare ++ [apc] from rfl,
          startsWith_append_right]
        exact startsWith_quote_path_close (by decide) hrp (by decide) cont
      · unfold cssAct2
        rw [if_neg]
        intro hc
        rw [hk] at hc
        exact CssKind.noConfusion hc.1

theorem cssPass3_start (old new : List Char) (hold : old.all safeChar = true)
    (r : CssRef) (cont : List Char) (hrp : r.path.all safeChar = true) :
    (tryDelim urlBare ')' old [] (renderCssRef r ++ cont) = none
        ∧ cssAct3 old new r = r)
    ∨ ∃ g, tryDelim urlBare ')' old [] (renderCssRef r ++ cont)
          = some ((renderCssRef r).length, g)
        ∧ mkUrl old new g = renderCssRef (cssAct3 old new r) := by
  cases hk : r.kind with
  | dq =>
      rw [renderCssRef_dq hk]
      have hb : ((qc :: r.path) ++ [qc]).all (fun c => c != ')') = true := by
        rw [List.all_append, List.all_cons]
        rw [all_safe_ne hrp (show safeChar ')' = false by decide)]
        decide
      rw [show (urlDq ++ (r.path ++ [qc, ')'])) ++ cont
          = urlBare ++ (((qc :: r.path) ++ [qc]) ++ ')' :: cont) from by
        simp [urlDq, urlBare]]
      rw [@tryDelim_eval urlBare ')' old [] ((qc :: r.path) ++ [qc]) cont hb]
      rw [endsWith_snoc_notSafe (qc :: r.path) hold (by decide)]
      rw [if_neg (show ¬(false = true) by decide)]
      left
      refine ⟨rfl, ?_⟩
      unfold cssAct3
      rw [if_neg]
      intro hc
      rw [hk] at hc
      exact CssKind.noConfusion hc.1
  | sq =>
      rw [renderCssRef_sq hk]
      have hb : ((apc :: r.path) ++ [apc]).all (fun c => c != ')') = true := by
        rw [List.all_append, List.all_cons]
        rw [all_safe_ne hrp (show safeChar ')' = false by decide)]
        decide
      rw [show (urlSq ++ (r.path ++ [apc, ')'])) ++ cont
          = urlBare ++ (((apc :: r.path) ++ [apc]) ++ ')' :: cont) from by
        simp [urlSq, urlBare]]
      rw [@tryDelim_eval urlBare ')' old [] ((apc :: r.path) ++ [apc]) cont hb]
      rw [endsWith_snoc_notSafe (apc :: r.path) hold (by decide)]
      rw [if_neg (show ¬(false = true) by decide)]
      left
      refine ⟨rfl, ?_⟩
      unfold cssAct3
      rw [if_neg]
      intro hc
      rw [hk] at hc
      exact CssKind.noConfusion hc.1
  | bare =>
      rw [renderCssRef_bare hk]
      rw [show (urlBare ++ (r.path ++ [')'])) ++ cont
          = urlBare ++ (r.path ++ ')' :: cont) from by simp]
      rw [@tryDelim_eval urlBare ')' old [] r.path cont
        (all_safe_ne hrp (by decide))]
      by_cases hm : endsWith ('/' :: old) r.path = true
      · right
        rw [if_pos hm, stripPre_nil_pre]
        refine ⟨r.path, ?_, ?_⟩
        · simp only [Option.some.injEq, Prod.mk.injEq]
          refine ⟨?_, trivial⟩
          simp only [List.length_append, List.length_cons, List.length_nil,
            urlBare]
          omega
        · unfold cssAct3
          rw [if_pos ⟨hk, hm⟩]
          unfold mkUrl renderCssRef
          simp
      · rw [if_neg hm]
        left
        refine ⟨rfl, ?_⟩
        unfold cssAct3
        rw [if_neg]
        intro hc
        exact hm hc.2

/-- Interior positions of a rendered url reference start no match of a
url-style pattern prefix. -/
theorem css_inner_nomatch (pre : List Char) (hpre : pre ≠ [])
    (hpreU : pre.all safeChar = false)
    (hoD : ∀ k, k < urlDq.length → 1 ≤ k →
        ¬((urlDq.drop k).head? = pre.head?))
    (hoS : ∀ k, k < urlSq.length → 1 ≤ k →
        ¬((urlSq.drop k).head? = pre.head?))
    (hoB : ∀ k, k < urlBare.length → 1 ≤ k →
        ¬((urlBare.drop k).head? = pre.head?))
    (hcD : ∀ k, k < 2 → ¬((([qc, ')'] : List Char).drop k).head? = pre.head?))
    (hcS : ∀ k, k < 2 → ¬((([apc, ')'] : List Char).drop k).head? = pre.head?))
    (hcB : ∀ k, k < 1 → ¬((([')'] : List Char).drop k).head? = pre.head?))
    (hmD : ∀ k, k < pre.length → (pre.take k).all safeChar = true →
        ¬((pre.drop k).head? = some qc))
    (hmS : ∀ k, k < pre.length → (pre.take k).all safeChar = true →
        ¬((pre.drop k).head? = some apc))
    (hmB : ∀ k, k < pre.length → (pre.take k).all safeChar = true →
        ¬((pre.drop k).head? = some ')'))
    {r : CssRef} {cont u v : List Char} (hrp : r.path.all safeChar = true)
    (huv : renderCssRef r = u ++ v) (hu : u ≠ []) (hv : v ≠ []) :
    startsWith pre (v ++ cont) = false := by
  cases hk : r.kind with
  | dq =>
      rw [renderCssRef_dq hk] at huv
      exact piece_suffix_nomatch huv hu hv hrp hpre hpreU (by simp) hoD
        hcD hmD
  | sq =>
      rw [renderCssRef_sq hk] at huv
      exact piece_suffix_nomatch huv hu hv hrp hpre hpreU (by simp) hoS
        hcS hmS
  | bare =>
      rw [renderCssRef_bare hk] at huv
      exact piece_suffix_nomatch huv hu hv hrp hpre hpreU (by simp) hoB
        hcB hmB

theorem cssPass1_doc (old new : List Char) (t0 : List Char)
    (l : List (CssRef × List Char)) (ht0 : safeTextC t0 = true)
    (hl : safeCssBody l = true) :
    cssPass1 old new (t0 ++ renderCssBody l)
      = t0 ++ renderCssBody (mapBodyC (cssAct1 old new) l) := by
  unfold cssPass1
  refine doc_passC ?_ ?_ ?_ ?_ l t0 ht0 hl
  · intro s len g h
    exact tryDelim_pos h
  · intro t cont hst hcont u v huv hv
    exact tryDelim_none (text_skip_nomatch
      (safeTextC_no_trig (Or.inl rfl) hst) hcont (by decide) u v huv hv)
  · intro r cont hrp u v huv hu hv
    exact tryDelim_none (css_inner_nomatch urlDq (by decide) (by decide)
      (by decide) (by decide) (by decide) (by decide) (by decide) (by decide)
      (by decide) (by decide) (by decide) hrp huv hu hv)
  · exact fun r cont hrp => cssPass1_start old new r cont hrp

theorem cssPass2_doc (old new : List Char) (t0 : List Char)
    (l : List (CssRef × List Char)) (ht0 : safeTextC t0 = true)
    (hl : safeCssBody l = true) :
    cssPass2 old new (t0 ++ renderCssBody l)
      = t0 ++ renderCssBody (mapBodyC (cssAct2 old new) l) := by
  unfold cssPass2
  refine doc_passC ?_ ?_ ?_ ?_ l t0 ht0 hl
  · intro s len g h
    exact tryDelim_pos h
  · intro t cont hst hcont u v huv hv
    exact tryDelim_none (text_skip_nomatch
      (safeTextC_no_trig (Or.inr (Or.inl rfl)) hst) hcont (by decide)
      u v huv hv)
  · intro r cont hrp u v huv hu hv
    exact tryDelim_none (css_inner_nomatch urlSq (by decide) (by decide)
      (by decide) (by decide) (by decide) (by decide) (by decide) (by decide)
      (by decide) (by decide) (by decide) hrp huv hu hv)
  · exact fun r cont hrp => cssPass2_start old new r cont hrp

theorem cssPass3_doc (old new : List Char) (hold : old.all safeChar = true)
    (t0 : List Char) (l : List (CssRef × List Char))
    (ht0 : safeTextC t0 = true) (hl : safeCssBody l = true) :
    cssPass3 old new (t0 ++ renderCssBody l)
      = t0 ++ renderCssBody (mapBodyC (cssAct3 old new) l) := by
  unfold cssPass3
  refine doc_passC ?_ ?_ ?_ ?_ l t0 ht0 hl
  · intro s len g h
    exact tryDelim_pos h
  · intro t cont hst hcont u v huv hv
    exact tryDelim_none (text_skip_nomatch
      (safeTextC_no_trig (Or.inr (Or.inr rfl)) hst) hcont (by decide)
      u v huv hv)
  · intro r cont hrp u v huv hu hv
    exact tryDelim_none (css_inner_nomatch urlBare (by decide) (by decide)
      (by decide) (by decide) (by decide) (by decide) (by decide) (by decide)
      (by decide) (by decide) (by decide) hrp huv hu hv)
  · exact fun r cont hrp => cssPass3_start old new hold r cont hrp

theorem cssActs_compose (old new : List Char) (r : CssRef) :
    cssAct3 old new (cssAct2 old new (cssAct1 old new r))
      = cssEntryAct old new r := by
  by_cases hm : endsWith ('/' :: old) r.path = true
  · cases hk : r.kind with
    | dq => simp [cssAct1, cssAct2, cssAct3, cssEntryAct, hk, hm]
    | sq => simp [cssAct1, cssAct2, cssAct3, cssEntryAct, hk, hm]
    | bare => simp [cssAct1, cssAct2, cssAct3, cssEntryAct, hk, hm]
  · have hmf : endsWith ('/' :: old) r.path = false := by
      cases h : endsWith ('/' :: old) r.path
      · rfl
      · exact absurd h hm
    simp [cssAct1, cssAct2, cssAct3, cssEntryAct, hmf]

theorem mapBodyC_mapBodyC (f g : CssRef → CssRef)
    (l : List (CssRef × List Char)) :
    mapBodyC f (mapBodyC g l) = mapBodyC (fun r => f (g r)) l := by
  unfold mapBodyC
  rw [List.map_map]
  rfl

theorem mapBodyC_congr (f g : CssRef → CssRef) (h : ∀ r, f r = g r)
    (l : List (CssRef × List Char)) : mapBodyC f l = mapBodyC g l := by
  unfold mapBodyC
  refine List.map_congr_left ?_
  intro a _
  rw [h a.1]

theorem cssAct1_safe (old new : List Char) (hn : new.all safeChar = true)
    (r : CssRef) (hr : r.path.all safeChar = true) :
    ((cssAct1 old new r).path).all safeChar = true := by
  unfold cssAct1
  split_ifs with h
  · exact pyReplace_safe old new hn r.path hr
  · exact hr

theorem cssAct2_safe (old new : List Char) (hn : new.all safeChar = true)
    (r : CssRef) (hr : r.path.all safeChar = true) :
    ((cssAct2 old new r).path).all safeChar = true := by
  unfold cssAct2
  split_ifs with h
  · exact pyReplace_safe old new hn r.path hr
  · exact hr

theorem cssAct3_safe (old new : List Char) (hn : new.all safeChar = true)
    (r : CssRef) (hr : r.path.all safeChar = true) :
    ((cssAct3 old new r).path).all safeChar = true := by
  unfold cssAct3
  split_ifs with h
  · exact pyReplace_safe old new hn r.path hr
  · exact hr

theorem cssEntryAct_safe (old new : List Char) (hn : new.all safeChar = true)
    (r : CssRef) (hr : r.path.all safeChar = true) :
    ((cssEntryAct old new r).path).all safeChar = true := by
  unfold cssEntryAct
  split_ifs with h
  · exact pyReplace_safe old new hn r.path hr
  · exact hr

theorem safeCssBody_mapBodyC (f : CssRef → CssRef)
    (hf : ∀ r : CssRef, r.path.all safeChar = true →
      ((f r).path).all safeChar = true)
    (l : List (CssRef × List Char)) (hl : safeCssBody l = true) :
    safeCssBody (mapBodyC f l) = true := by
  unfold safeCssBody at hl ⊢
  unfold mapBodyC
  rw [List.all_map, List.all_eq_true]
  rw [List.all_eq_true] at hl
  intro rt hrt
  have h := hl rt hrt
  rw [Bool.and_eq_true] at h
  simp only [Function.comp_apply]
  rw [Bool.and_eq_true]
  exact ⟨hf rt.1 h.1, h.2⟩

theorem applyCssEntry_doc (old new : List Char)
    (hso : old.all safeChar = true) (hsn : new.all safeChar = true)
    (t0 : List Char) (l : List (CssRef × List Char))
    (ht0 : safeTextC t0 = true) (hl : safeCssBody l = true) :
    applyCssEntry old new (t0 ++ renderCssBody l)
      = t0 ++ renderCssBody (mapBodyC (cssEntryAct old new) l) := by
  have hl1 : safeCssBody (mapBodyC (cssAct1 old new) l) = true :=
    safeCssBody_mapBodyC _ (cssAct1_safe old new hsn) l hl
  have hl2 : safeCssBody
      (mapBodyC (cssAct2 old new) (mapBodyC (cssAct1 old new) l)) = true :=
    safeCssBody_mapBodyC _ (cssAct2_safe old new hsn) _ hl1
  unfold applyCssEntry
  rw [cssPass1_doc old new t0 l ht0 hl,
    cssPass2_doc old new t0 _ ht0 hl1,
    cssPass3_doc old new hso t0 _ ht0 hl2]
  congr 1
  rw [mapBodyC_mapBodyC, mapBodyC_mapBodyC]
  congr 1
  exact mapBodyC_congr _ _ (fun r => cssActs_compose old new r) l

/-- Semantic action of the whole mapping fold of update_css_references on
one url reference. -/
def cssMapAct (M : List (List Char × List Char)) (r : CssRef) : CssRef :=
  M.foldl (fun r2 e => cssEntryAct (basename e.1) (basename e.2) r2) r

theorem update_css_doc (M : List (List Char × List Char))
    (hM : ∀ e ∈ M, (basename e.1).all safeChar = true
      ∧ (basename e.2).all safeChar = true) :
    ∀ (t0 : List Char) (l : List (CssRef × List Char)),
      safeTextC t0 = true → safeCssBody l = true →
      update_css_references M (t0 ++ renderCssBody l)
        = t0 ++ renderCssBody (mapBodyC (cssMapAct M) l) := by
  induction M with
  | nil =>
      intro t0 l ht0 hl
      have hid : mapBodyC (cssMapAct []) l = l := by
        unfold mapBodyC cssMapAct
        simp
      rw [hid]
      rfl
  | cons e M ih =>
      intro t0 l ht0 hl
      obtain ⟨hso, hsn⟩ := hM e (List.mem_cons_self e M)
      have hstep : update_css_references (e :: M) (t0 ++ renderCssBody l)
          = update_css_references M
              (applyCssEntry (basename e.1) (basename e.2)
                (t0 ++ renderCssBody l)) := by
        unfold update_css_references
        rw [List.foldl_cons]
      rw [hstep,
        applyCssEntry_doc (basename e.1) (basename e.2) hso hsn t0 l ht0 hl,
        ih (fun e2 he2 => hM e2 (List.mem_cons_of_mem e he2)) t0 _ ht0
          (safeCssBody_mapBodyC _
            (cssEntryAct_safe (basename e.1) (basename e.2) hsn) l hl),
        mapBodyC_mapBodyC]
      congr 2

/-- C7: the CSS rewriter, applied to a document whose inert text never
contains "url(" and whose reference paths avoid quotes, parentheses and
the equals sign, rewrites exactly those url references -- double-quoted,
single-quoted or unquoted -- whose path ends in '/' followed by the old
filename; on a match, when the old filename occurs in the path only as
its final segment, exactly that filename segment is replaced by the new
filename, and the output is always normalized to the double-quoted
url("...") form; a reference whose path does not end in '/' plus the old
filename is left unchanged. -/
theorem C7_css_rewrite (old new : List Char) (hne : old ≠ [])
    (hos : old.all (fun c => c != '/') = true)
    (hso : old.all safeChar = true) (hsn : new.all safeChar = true)
    (t0 : List Char) (l : List (CssRef × List Char))
    (ht0 : safeTextC t0 = true) (hl : safeCssBody l = true) :
    applyCssEntry old new (t0 ++ renderCssBody l)
        = t0 ++ renderCssBody (mapBodyC (cssEntryAct old new) l)
      ∧ (∀ r : CssRef, endsWith ('/' :: old) r.path = false →
          cssEntryAct old new r = r)
      ∧ (∀ (r : CssRef) (u : List Char), r.path = u ++ '/' :: old →
          hasInfix old u = false →
          cssEntryAct old new r = CssRef.mk CssKind.dq (u ++ '/' :: new)) := by
  refine ⟨applyCssEntry_doc old new hso hsn t0 l ht0 hl, ?_, ?_⟩
  · intro r hm
    unfold cssEntryAct
    rw [if_neg]
    rw [hm]
    exact Bool.false_ne_true
  · intro r u hru hinf
    unfold cssEntryAct
    rw [if_pos]
    · rw [hru]
      unfold pyReplace
      rw [strReplace_clean hne hos (u ++ '/' :: old).length u le_rfl hinf]
    · rw [hru]
      exact endsWith_append u ('/' :: old)

theorem C7_css_rewrite_witness :
    applyCssEntry "bg.jpg".toList "bg.png".toList
        ("background: ".toList ++ renderCssBody
          [(CssRef.mk CssKind.sq "../images/bg.jpg".toList, ";".toList)])
      = "background: ".toList ++ renderCssBody
          (mapBodyC (cssEntryAct "bg.jpg".toList "bg.png".toList)
            [(CssRef.mk CssKind.sq "../images/bg.jpg".toList, ";".toList)])
    ∧ mapBodyC (cssEntryAct "bg.jpg".toList "bg.png".toList)
          [(CssRef.mk CssKind.sq "../images/bg.jpg".toList, ";".toList)]
        = [(CssRef.mk CssKind.dq "../images/bg.png".toList, ";".toList)] :=
  ⟨(C7_css_rewrite "bg.jpg".toList "bg.png".toList (by decide) (by decide)
      (by decide) (by decide) "background: ".toList
      [(CssRef.mk CssKind.sq "../images/bg.jpg".toList, ";".toList)]
      (by decide) (by decide)).1,
   by decide⟩

theorem srcRef_mk_eq_self {r : SrcRef} (h : r.dquoted = true) :
    SrcRef.mk true r.path = r := by
  obtain ⟨d, p⟩ := r
  rw [show d = true from h]

theorem cssRef_mk_eq_self {r : CssRef} (h : r.kind = CssKind.dq) :
    CssRef.mk CssKind.dq r.path = r := by
  obtain ⟨k, p⟩ := r
  rw [show k = CssKind.dq from h]

theorem xmlMapAct_fixes (M : List (List Char × List Char)) (r : SrcRef)
    (h : ∀ e ∈ M, xmlEntryAct (basename e.1) (basename e.2) r = r) :
    xmlMapAct M r = r := by
  induction M with
  | nil => rfl
  | cons e M ih =>
      unfold xmlMapAct
      rw [List.foldl_cons, h e (List.mem_cons_self e M)]
      exact ih (fun e2 he2 => h e2 (List.mem_cons_of_mem e he2))

theorem xmlMapAct_shape (M : List (List Char × List Char))
    (hok : ∀ e ∈ M, basename e.1 ≠ []) :
    ∀ r : SrcRef, xmlMapAct M r = r
      ∨ ((xmlMapAct M r).dquoted = true
          ∧ ∃ w e, e ∈ M ∧ (xmlMapAct M r).path = w ++ '/' :: basename e.2) := by
  induction M with
  | nil => exact fun r => Or.inl rfl
  | cons e M ih =>
      intro r
      have hstep : xmlMapAct (e :: M) r
          = xmlMapAct M (xmlEntryAct (basename e.1) (basename e.2) r) := by
        unfold xmlMapAct
        rw [List.foldl_cons]
      by_cases hm : endsWith ('/' :: basename e.1) r.path = true
      · have hact : xmlEntryAct (basename e.1) (basename e.2) r
            = SrcRef.mk true (pyReplace (basename e.1) (basename e.2) r.path) := by
          unfold xmlEntryAct
          rw [if_pos hm]
        obtain ⟨u, hu⟩ := endsWith_iff.1 hm
        have htail : ∃ w, pyReplace (basename e.1) (basename e.2) r.path
            = w ++ '/' :: basename e.2 := by
          rw [hu]
          exact strReplace_tail (hok e (List.mem_cons_self e M))
            (basename_no_slash e.1) (u ++ '/' :: basename e.1).length u le_rfl
        obtain ⟨w0, hw0⟩ := htail
        rcases ih (fun e2 he2 => hok e2 (List.mem_cons_of_mem e he2))
            (SrcRef.mk true (pyReplace (basename e.1) (basename e.2) r.path))
          with h | ⟨hdq, w, e2, he2, hp⟩
        · right
          rw [hstep, hact, h]
          exact ⟨rfl, w0, e, List.mem_cons_self e M, hw0⟩
        · right
          rw [hstep, hact]
          exact ⟨hdq, w, e2, List.mem_cons_of_mem e he2, hp⟩
      · have hact : xmlEntryAct (basename e.1) (basename e.2) r = r := by
          unfold xmlEntryAct
          rw [if_neg hm]
        rw [hstep, hact]
        rcases ih (fun e2 he2 => hok e2 (List.mem_cons_of_mem e he2)) r
          with h | ⟨hdq, w, e2, he2, hp⟩
        · exact Or.inl h
        · exact Or.inr ⟨hdq, w, e2, List.mem_cons_of_mem e he2, hp⟩

theorem xmlMapAct_idem (M : List (List Char × List Char))
    (hok : ∀ e ∈ M, basename e.1 ≠ [])
    (hid : ∀ e ∈ M, ∀ e2 ∈ M, basename e2.1 = basename e.2 →
      basename e2.2 = basename e2.1)
    (r : SrcRef) : xmlMapAct M (xmlMapAct M r) = xmlMapAct M r := by
  rcases xmlMapAct_shape M hok r with h | ⟨hdq, w, e, heM, hp⟩
  · rw [h]
    exact h
  · apply xmlMapAct_fixes
    intro e2 he2
    by_cases hm : endsWith ('/' :: basename e2.1) (xmlMapAct M r).path = true
    · have heq : basename e2.1 = basename e.2 := by
        rw [hp] at hm
        obtain ⟨u, hu⟩ := endsWith_iff.1 hm
        exact (slash_suffix_unique (basename_no_slash e.2)
          (basename_no_slash e2.1) hu).symm
      have hidty := hid e heM e2 he2 heq
      unfold xmlEntryAct
      rw [if_pos hm, hidty, pyReplace_self]
      exact srcRef_mk_eq_self hdq
    · unfold xmlEntryAct
      rw [if_neg hm]

theorem xmlMapAct_safe (M : List (List Char × List Char))
    (hM : ∀ e ∈ M, (basename e.2).all safeChar = true) :
    ∀ r : SrcRef, r.path.all safeChar = true →
      ((xmlMapAct M r).path).all safeChar = true := by
  induction M with
  | nil => exact fun r hr => hr
  | cons e M ih =>
      intro r hr
      have hstep : xmlMapAct (e :: M) r
          = xmlMapAct M (xmlEntryAct (basename e.1) (basename e.2) r) := by
        unfold xmlMapAct
        rw [List.foldl_cons]
      rw [hstep]
      exact ih (fun e2 he2 => hM e2 (List.mem_cons_of_mem e he2)) _
        (xmlEntryAct_safe (basename e.1) (basename e.2)
          (hM e (List.mem_cons_self e M)) r hr)

theorem cssMapAct_fixes (M : List (List Char × List Char)) (r : CssRef)
    (h : ∀ e ∈ M, cssEntryAct (basename e.1) (basename e.2) r = r) :
    cssMapAct M r = r := by
  induction M with
  | nil => rfl
  | cons e M ih =>
      unfold cssMapAct
      rw [List.foldl_cons, h e (List.mem_cons_self e M)]
      exact ih (fun e2 he2 => h e2 (List.mem_cons_of_mem e he2))

theorem cssMapAct_shape (M : List (List Char × List Char))
    (hok : ∀ e ∈ M, basename e.1 ≠ []) :
    ∀ r : CssRef, cssMapAct M r = r
      ∨ ((cssMapAct M r).kind = CssKind.dq
          ∧ ∃ w e, e ∈ M ∧ (cssMapAct M r).path = w ++ '/' :: basename e.2) := by
  induction M with
  | nil => exact fun r => Or.inl rfl
  | cons e M ih =>
      intro r
      have hstep : cssMapAct (e :: M) r
          = cssMapAct M (cssEntryAct (basename e.1) (basename e.2) r) := by
        unfold cssMapAct
        rw [List.foldl_cons]
      by_cases hm : endsWith ('/' :: basename e.1) r.path = true
      · have hact : cssEntryAct (basename e.1) (basename e.2) r
            = CssRef.mk CssKind.dq
                (pyReplace (basename e.1) (basename e.2) r.path) := by
          unfold cssEntryAct
          rw [if_pos hm]
        obtain ⟨u, hu⟩ := endsWith_iff.1 hm
        have htail : ∃ w, pyReplace (basename e.1) (basename e.2) r.path
            = w ++ '/' :: basename e.2 := by
          rw [hu]
          exact strReplace_tail (hok e (List.mem_cons_self e M))
            (basename_no_slash e.1) (u ++ '/' :: basename e.1).length u le_rfl
        obtain ⟨w0, hw0⟩ := htail
        rcases ih (fun e2 he2 => hok e2 (List.mem_cons_of_mem e he2))
            (CssRef.mk CssKind.dq
              (pyReplace (basename e.1) (basename e.2) r.path))
          with h | ⟨hdq, w, e2, he2, hp⟩
        · right
          rw [hstep, hact, h]
          exact ⟨rfl, w0, e, List.mem_cons_self e M, hw0⟩
        · right
          rw [hstep, hact]
          exact ⟨hdq, w, e2, List.mem_cons_of_mem e he2, hp⟩
      · have hact : cssEntryAct (basename e.1) (basename e.2) r = r := by
          unfold cssEntryAct
          rw [if_neg hm]
        rw [hstep, hact]
        rcases ih (fun e2 he2 => hok e2 (List.mem_cons_of_mem e he2)) r
          with h | ⟨hdq, w, e2, he2, hp⟩
        · exact Or.inl h
        · exact Or.inr ⟨hdq, w, e2, List.mem_cons_of_mem e he2, hp⟩

theorem cssMapAct_idem (M : List (List Char × List Char))
    (hok : ∀ e ∈ M, basename e.1 ≠ [])
    (hid : ∀ e ∈ M, ∀ e2 ∈ M, basename e2.1 = basename e.2 →
      basename e2.2 = basename e2.1)
    (r : CssRef) : cssMapAct M (cssMapAct M r) = cssMapAct M r := by
  rcases cssMapAct_shape M hok r with h | ⟨hdq, w, e, heM, hp⟩
  · rw [h]
    exact h
  · apply cssMapAct_fixes
    intro e2 he2
    by_cases hm : endsWith ('/' :: basename e2.1) (cssMapAct M r).path = true
    · have heq : basename e2.1 = basename e.2 := by
        rw [hp] at hm
        obtain ⟨u, hu⟩ := endsWith_iff.1 hm
        exact (slash_suffix_unique (basename_no_slash e.2)
          (basename_no_slash e2.1) hu).symm
      have hidty := hid e heM e2 he2 heq
      unfold cssEntryAct
      rw [if_pos hm, hidty, pyReplace_self]
      exact cssRef_mk_eq_self hdq
    · unfold cssEntryAct
      rw [if_neg hm]

theorem cssMapAct_safe (M : List (List Char × List Char))
    (hM : ∀ e ∈ M, (basename e.2).all safeChar = true) :
    ∀ r : CssRef, r.path.all safeChar = true →
      ((cssMapAct M r).path).all safeChar = true := by
  induction M with
  | nil => exact fun r hr => hr
  | cons e M ih =>
      intro r hr
      have hstep : cssMapAct (e :: M) r
          = cssMapAct M (cssEntryAct (basename e.1) (basename e.2) r) := by
        unfold cssMapAct
        rw [List.foldl_cons]
      rw [hstep]
      exact ih (fun e2 he2 => hM e2 (List.mem_cons_of_mem e he2)) _
        (cssEntryAct_safe (basename e.1) (basename e.2)
          (hM e (List.mem_cons_self e M)) r hr)

theorem startsWith_until_stop {stop : Char} :
    ∀ {q s r : List Char}, q.all (fun c => c != stop) = true →
      startsWith q (s ++ stop :: r) = true → startsWith q s = true := by
  intro q
  induction q with
  | nil => intro s r _ _; rfl
  | cons a q ih =>
      intro s r hq h
      rw [List.all_cons, Bool.and_eq_true] at hq
      cases s with
      | nil =>
          rw [List.nil_append, startsWith_cons_cons, Bool.and_eq_true,
            beq_iff_eq] at h
          rw [bne_iff_ne] at hq
          exact absurd h.1 hq.1
      | cons b0 s2 =>
          rw [List.cons_append, startsWith_cons_cons, Bool.and_eq_true] at h
          rw [startsWith_cons_cons, Bool.and_eq_true]
          exact ⟨h.1, ih hq.2 h.2⟩

theorem endsWith_through_slash {p w b : List Char}
    (hp : p.all (fun c => c != '/') = true)
    (h : endsWith p (w ++ '/' :: b) = true) : endsWith p b = true := by
  unfold endsWith at h ⊢
  rw [show (w ++ '/' :: b).reverse = b.reverse ++ '/' :: w.reverse from by
    simp] at h
  refine startsWith_until_stop ?_ h
  rw [List.all_reverse]
  exact hp

theorem findMapEntry_mem {href : List Char}
    {M : List (List Char × List Char)} {e : List Char × List Char}
    (h : findMapEntry href M = some e) :
    e ∈ M ∧ endsWith (basename e.1) href = true := by
  induction M with
  | nil => exact absurd h (by unfold findMapEntry; exact Option.noConfusion)
  | cons e0 M ih =>
      unfold findMapEntry at h
      by_cases hm : endsWith (basename e0.1) href = true
      · rw [if_pos hm] at h
        obtain ⟨o, n⟩ := e0
        rw [Option.some.injEq] at h
        refine ⟨?_, ?_⟩
        · rw [← h]
          exact List.mem_cons_self _ M
        · rw [← h]
          exact hm
      · obtain ⟨o, n⟩ := e0
        rw [if_neg hm] at h
        obtain ⟨hmem, hend⟩ := ih h
        exact ⟨List.mem_cons_of_mem _ hmem, hend⟩

theorem update_opf_item_idem (M : List (List Char × List Char))
    (hok : ∀ e ∈ M, basename e.1 ≠ [])
    (hidM : ∀ e ∈ M, ∀ e2 ∈ M,
      endsWith (basename e2.1) (basename e.2) = true →
      basename e2.2 = basename e2.1)
    (it : ManifestItem)
    (hclean : ∀ o n, findMapEntry it.href M = some (o, n) →
      ∃ d, it.href = d ++ '/' :: basename o
        ∧ hasInfix (basename o) d = false) :
    update_opf_item M (update_opf_item M it) = update_opf_item M it := by
  cases h1 : findMapEntry it.href M with
  | none =>
      have hup1 : update_opf_item M it = it := by
        unfold update_opf_item
        rw [h1]
      rw [hup1, hup1]
  | some e =>
      obtain ⟨o, n⟩ := e
      obtain ⟨heM, _⟩ := findMapEntry_mem h1
      obtain ⟨d, hd, hinf⟩ := hclean o n h1
      have hrepl : pyReplace (basename o) (basename n) it.href
          = d ++ '/' :: basename n := by
        rw [hd]
        unfold pyReplace
        exact strReplace_clean (hok (o, n) heM) (basename_no_slash o)
          (d ++ '/' :: basename o).length d le_rfl hinf
      have hup1 : update_opf_item M it
          = ManifestItem.mk (d ++ '/' :: basename n)
              (if it.mediaType = jpegType then pngType else it.mediaType)
              it.rest := by
        unfold update_opf_item
        rw [h1]
        dsimp only
        rw [hrepl]
      rw [hup1]
      cases h2 : findMapEntry (d ++ '/' :: basename n) M with
      | none =>
          unfold update_opf_item
          rw [show (ManifestItem.mk (d ++ '/' :: basename n)
              (if it.mediaType = jpegType then pngType else it.mediaType)
              it.rest).href = d ++ '/' :: basename n from rfl, h2]
      | some e2 =>
          obtain ⟨o2, n2⟩ := e2
          obtain ⟨he2M, hend2⟩ := findMapEntry_mem h2
          have hsuf : endsWith (basename o2) (basename n) = true :=
            endsWith_through_slash (basename_no_slash o2) hend2
          have hident : basename n2 = basename o2 :=
            hidM (o, n) heM (o2, n2) he2M hsuf
          unfold update_opf_item
          rw [show (ManifestItem.mk (d ++ '/' :: basename n)
              (if it.mediaType = jpegType then pngType else it.mediaType)
              it.rest).href = d ++ '/' :: basename n from rfl, h2]
          dsimp only
          rw [hident, pyReplace_self]
          by_cases hmt : it.mediaType = jpegType
          · rw [if_pos hmt, if_neg (show ¬(pngType = jpegType) by decide)]
          · rw [if_neg hmt, if_neg hmt]

/-- C3: each dialect handler is idempotent on pipeline-shaped mappings:
whenever every mapping entry whose old filename occurs as a suffix of
some entry's new filename is an identity entry (old filename = new
filename) -- which holds for the mappings the pipeline builds, whose new
names are the old names with the extension replaced by .png -- re-running
update_xml_references or update_css_references on its own output over a
safe document changes nothing, and re-running update_opf_manifest on its
own output changes nothing when each href locates the matched old
filename only as its final path segment.  (For arbitrary mappings the
property fails, see the counterexample.) -/
theorem C3_handlers_idempotent (M : List (List Char × List Char))
    (hok : ∀ e ∈ M, basename e.1 ≠ [])
    (hidM : ∀ e ∈ M, ∀ e2 ∈ M,
      endsWith (basename e2.1) (basename e.2) = true →
      basename e2.2 = basename e2.1)
    (hsafe : ∀ e ∈ M, (basename e.1).all safeChar = true
      ∧ (basename e.2).all safeChar = true)
    (t0 : List Char) (l : List (SrcRef × List Char))
    (ht0 : safeTextX t0 = true) (hl : safeXmlBody l = true)
    (t0c : List Char) (lc : List (CssRef × List Char))
    (ht0c : safeTextC t0c = true) (hlc : safeCssBody lc = true)
    (items : List ManifestItem)
    (hclean : ∀ it ∈ items, ∀ o n, findMapEntry it.href M = some (o, n) →
      ∃ d, it.href = d ++ '/' :: basename o
        ∧ hasInfix (basename o) d = false) :
    update_xml_references M (update_xml_references M (t0 ++ renderXmlBody l))
        = update_xml_references M (t0 ++ renderXmlBody l)
      ∧ update_css_references M
            (update_css_references M (t0c ++ renderCssBody lc))
          = update_css_references M (t0c ++ renderCssBody lc)
      ∧ update_opf_manifest M (update_opf_manifest M items)
          = update_opf_manifest M items := by
  have hid : ∀ e ∈ M, ∀ e2 ∈ M, basename e2.1 = basename e.2 →
      basename e2.2 = basename e2.1 := by
    intro e he e2 he2 heq
    refine hidM e he e2 he2 ?_
    rw [heq]
    exact endsWith_iff.2 ⟨[], (List.nil_append _).symm⟩
  refine ⟨?_, ?_, ?_⟩
  · have hM1 : ∀ e ∈ M, basename e.1 ≠ []
        ∧ (basename e.1).all safeChar = true
        ∧ (basename e.2).all safeChar = true :=
      fun e he => ⟨hok e he, (hsafe e he).1, (hsafe e he).2⟩
    rw [update_xml_doc M hM1 t0 l ht0 hl,
      update_xml_doc M hM1 t0 (mapBody (xmlMapAct M) l) ht0
        (safeXmlBody_mapBody _
          (xmlMapAct_safe M (fun e he => (hsafe e he).2)) l hl),
      mapBody_mapBody]
    congr 2
    exact mapBody_congr _ _ (fun r => xmlMapAct_idem M hok hid r) l
  · have hM2 : ∀ e ∈ M, (basename e.1).all safeChar = true
        ∧ (basename e.2).all safeChar = true := hsafe
    rw [update_css_doc M hM2 t0c lc ht0c hlc,
      update_css_doc M hM2 t0c (mapBodyC (cssMapAct M) lc) ht0c
        (safeCssBody_mapBodyC _
          (cssMapAct_safe M (fun e he => (hsafe e he).2)) lc hlc),
      mapBodyC_mapBodyC]
    congr 2
    exact mapBodyC_congr _ _ (fun r => cssMapAct_idem M hok hid r) lc
  · unfold update_opf_manifest
    rw [List.map_map]
    refine List.map_congr_left ?_
    intro it hit
    exact update_opf_item_idem M hok hidM it (hclean it hit)

theorem C3_handlers_idempotent_witness :
    update_xml_references
          [("images/cover.jpg".toList, "images/cover.png".toList)]
          (update_xml_references
            [("images/cover.jpg".toList, "images/cover.png".toList)]
            ("<p>".toList ++ renderXmlBody
              [(SrcRef.mk false "images/cover.jpg".toList, " ".toList)]))
        = update_xml_references
            [("images/cover.jpg".toList, "images/cover.png".toList)]
            ("<p>".toList ++ renderXmlBody
              [(SrcRef.mk false "images/cover.jpg".toList, " ".toList)])
      ∧ update_css_references
            [("images/cover.jpg".toList, "images/cover.png".toList)]
            (update_css_references
              [("images/cover.jpg".toList, "images/cover.png".toList)]
              ("body ".toList ++ renderCssBody
                [(CssRef.mk CssKind.bare "images/cover.jpg".toList,
                  ";".toList)]))
          = update_css_references
              [("images/cover.jpg".toList, "images/cover.png".toList)]
              ("body ".toList ++ renderCssBody
                [(CssRef.mk CssKind.bare "images/cover.jpg".toList,
                  ";".toList)])
      ∧ update_opf_manifest
            [("images/cover.jpg".toList, "images/cover.png".toList)]
            (update_opf_manifest
              [("images/cover.jpg".toList, "images/cover.png".toList)]
              [ManifestItem.mk "images/cover.jpg".toList jpegType []])
          = update_opf_manifest
              [("images/cover.jpg".toList, "images/cover.png".toList)]
              [ManifestItem.mk "images/cover.jpg".toList jpegType []] :=
  C3_handlers_idempotent
    [("images/cover.jpg".toList, "images/cover.png".toList)]
    (by decide) (by decide) (by decide)
    "<p>".toList [(SrcRef.mk false "images/cover.jpg".toList, " ".toList)]
    (by decide) (by decide)
    "body ".toList
    [(CssRef.mk CssKind.bare "images/cover.jpg".toList, ";".toList)]
    (by decide) (by decide)
    [ManifestItem.mk "images/cover.jpg".toList jpegType []]
    (by
      intro it hit o n h
      rw [List.mem_singleton] at hit
      subst hit
      rw [show findMapEntry
            (ManifestItem.mk "images/cover.jpg".toList jpegType []).href
            [("images/cover.jpg".toList, "images/cover.png".toList)]
          = some ("images/cover.jpg".toList, "images/cover.png".toList)
          from by decide] at h
      rw [Option.some.injEq, Prod.mk.injEq] at h
      obtain ⟨ho, hn⟩ := h
      subst ho
      subst hn
      exact ⟨"images".toList, by decide, by decide⟩)

theorem xmlMapAct_no_stale (M : List (List Char × List Char)) :
    ∀ (hok : ∀ e ∈ M, basename e.1 ≠ [])
      (hid : ∀ e ∈ M, ∀ e2 ∈ M, basename e2.1 = basename e.2 →
        basename e2.2 = basename e2.1)
      (r : SrcRef) (e : List Char × List Char), e ∈ M →
      basename e.2 ≠ basename e.1 →
      endsWith ('/' :: basename e.1) ((xmlMapAct M r).path) = false := by
  induction M with
  | nil =>
      intro _ _ r e he
      exact absurd he (List.not_mem_nil e)
  | cons e0 M ih =>
      intro hok hid r e he hnon
      have hstep : xmlMapAct (e0 :: M) r
          = xmlMapAct M (xmlEntryAct (basename e0.1) (basename e0.2) r) := by
        unfold xmlMapAct
        rw [List.foldl_cons]
      rw [hstep]
      rcases List.mem_cons.1 he with heq | hmem
      · subst heq
        rcases xmlMapAct_shape M (fun e2 h2 => hok e2 (List.mem_cons_of_mem e h2))
            (xmlEntryAct (basename e.1) (basename e.2) r)
          with hEq | ⟨hdq, w, e3, he3, hp⟩
        · rw [hEq]
          by_cases hm : endsWith ('/' :: basename e.1) r.path = true
          · have hact : xmlEntryAct (basename e.1) (basename e.2) r
                = SrcRef.mk true
                    (pyReplace (basename e.1) (basename e.2) r.path) := by
              unfold xmlEntryAct
              rw [if_pos hm]
            obtain ⟨u, hu⟩ := endsWith_iff.1 hm
            obtain ⟨w0, hw0⟩ : ∃ w0,
                pyReplace (basename e.1) (basename e.2) r.path
                  = w0 ++ '/' :: basename e.2 := by
              rw [hu]
              exact strReplace_tail (hok e (List.mem_cons_self e M))
                (basename_no_slash e.1) (u ++ '/' :: basename e.1).length
                u le_rfl
            rw [hact]
            show endsWith ('/' :: basename e.1)
              (pyReplace (basename e.1) (basename e.2) r.path) = false
            rw [hw0]
            cases hcheck : endsWith ('/' :: basename e.1)
                (w0 ++ '/' :: basename e.2) with
            | false => rfl
            | true =>
                exfalso
                obtain ⟨u2, hu2⟩ := endsWith_iff.1 hcheck
                exact hnon (slash_suffix_unique (basename_no_slash e.2)
                  (basename_no_slash e.1) hu2)
          · have hact : xmlEntryAct (basename e.1) (basename e.2) r = r := by
              unfold xmlEntryAct
              rw [if_neg hm]
            rw [hact]
            cases hcheck : endsWith ('/' :: basename e.1) r.path with
            | false => rfl
            | true => exact absurd hcheck hm
        · rw [hp]
          cases hcheck : endsWith ('/' :: basename e.1)
              (w ++ '/' :: basename e3.2) with
          | false => rfl
          | true =>
              exfalso
              obtain ⟨u2, hu2⟩ := endsWith_iff.1 hcheck
              have heq2 : basename e3.2 = basename e.1 :=
                slash_suffix_unique (basename_no_slash e3.2)
                  (basename_no_slash e.1) hu2
              exact hnon (hid e3 (List.mem_cons_of_mem e he3) e
                (List.mem_cons_self e M) heq2.symm)
      · exact ih (fun e2 h2 => hok e2 (List.mem_cons_of_mem e0 h2))
          (fun ea hea e2 he2 => hid ea (List.mem_cons_of_mem e0 hea) e2
            (List.mem_cons_of_mem e0 he2))
          _ e hmem hnon

/-- C8: the keys of the accumulated mapping are exactly the image files
whose conversion succeeded, in enumeration order, so they are pairwise
distinct whenever the enumerated files are; and after applying the
mapping to a safe markup document, no reference's path still ends in '/'
followed by the old filename of any non-identity mapping entry (an
identity entry -- a .png source converted in place, whose old and new
names coincide -- keeps matching its own output, see the
counterexample). -/
theorem C8_mapping_unique_no_rematch
    (files : List (List Char)) (ok : List Char → Bool)
    (hpw : List.Pairwise (fun a b => a ≠ b) files)
    (M : List (List Char × List Char))
    (hok : ∀ e ∈ M, basename e.1 ≠ [])
    (hid : ∀ e ∈ M, ∀ e2 ∈ M, basename e2.1 = basename e.2 →
      basename e2.2 = basename e2.1)
    (hsafe : ∀ e ∈ M, (basename e.1).all safeChar = true
      ∧ (basename e.2).all safeChar = true)
    (t0 : List Char) (l : List (SrcRef × List Char))
    (ht0 : safeTextX t0 = true) (hl : safeXmlBody l = true) :
    (buildMapping files ok).map Prod.fst
        = files.filter (fun f => isImagePath f && ok f)
      ∧ List.Pairwise (fun a b => a ≠ b)
          ((buildMapping files ok).map Prod.fst)
      ∧ update_xml_references M (t0 ++ renderXmlBody l)
          = t0 ++ renderXmlBody (mapBody (xmlMapAct M) l)
      ∧ ∀ rt ∈ mapBody (xmlMapAct M) l, ∀ e ∈ M,
          basename e.2 ≠ basename e.1 →
          endsWith ('/' :: basename e.1) rt.1.path = false := by
  have hkeys : (buildMapping files ok).map Prod.fst
      = files.filter (fun f => isImagePath f && ok f) := by
    rw [buildMapping_eq, List.map_map]
    rw [show (Prod.fst ∘ fun f => (f, newImagePath f)) = id from rfl,
      List.map_id]
  refine ⟨hkeys, ?_, ?_, ?_⟩
  · rw [hkeys]
    exact List.Pairwise.filter _ hpw
  · exact update_xml_doc M
      (fun e he => ⟨hok e he, (hsafe e he).1, (hsafe e he).2⟩) t0 l ht0 hl
  · intro rt hrt e he hnon
    obtain ⟨rt0, hrt0, hmap⟩ := List.mem_map.1 hrt
    rw [← hmap]
    exact xmlMapAct_no_stale M hok hid rt0.1 e he hnon

theorem C8_mapping_unique_no_rematch_witness :
    (buildMapping ["images/cover.jpg".toList, "images/photo.png".toList]
        (fun f => true)).map Prod.fst
      = ["images/cover.jpg".toList, "images/photo.png".toList].filter
          (fun f => isImagePath f && (fun f => true) f)
    ∧ List.Pairwise (fun a b => a ≠ b)
        ((buildMapping ["images/cover.jpg".toList, "images/photo.png".toList]
          (fun f => true)).map Prod.fst)
    ∧ update_xml_references
          [("images/cover.jpg".toList, "images/cover.png".toList)]
          ("<p>".toList ++ renderXmlBody
            [(SrcRef.mk true "images/cover.jpg".toList, " ".toList)])
        = "<p>".toList ++ renderXmlBody
            (mapBody
              (xmlMapAct
                [("images/cover.jpg".toList, "images/cover.png".toList)])
              [(SrcRef.mk true "images/cover.jpg".toList, " ".toList)])
    ∧ endsWith ('/' :: basename "images/cover.jpg".toList)
          ((xmlMapAct [("images/cover.jpg".toList, "images/cover.png".toList)]
             (SrcRef.mk true "images/cover.jpg".toList)).path)
        = false := by
  have h := C8_mapping_unique_no_rematch
    ["images/cover.jpg".toList, "images/photo.png".toList] (fun f => true)
    (by decide)
    [("images/cover.jpg".toList, "images/cover.png".toList)]
    (by decide) (by decide) (by decide)
    "<p>".toList [(SrcRef.mk true "images/cover.jpg".toList, " ".toList)]
    (by decide) (by decide)
  refine ⟨h.1, h.2.1, h.2.2.1, ?_⟩
  exact h.2.2.2
    (xmlMapAct [("images/cover.jpg".toList, "images/cover.png".toList)]
      (SrcRef.mk true "images/cover.jpg".toList), " ".toList)
    (by decide)
    ("images/cover.jpg".toList, "images/cover.png".toList)
    (by decide) (by decide)
